import Mathlib

/-!
Verification of the agent orchestration & tool-execution core of the
`eugent` command-line agent, as a shallow embedding in Lean.

The embedding mirrors the TypeScript sources:
- JSON values / `JSON.parse` / `JSON.stringify` (consumed throughout the core),
- `src/lib/core/types.ts` (Message, ToolCall),
- `src/lib/chat/toolCallValidator.ts` (validateToolName, parseToolArguments,
  extractToolCallHistory),
- `src/hooks/useToolExecutor.ts` (the manage_todos result handler),
- `src/lib/validation/messageValidation.ts` (validateMessages,
  healOrphanedToolCalls),
- `src/lib/chat/errorHandlers.ts` (handleAbortError),
- `src/lib/security/pathValidator.ts` (validatePath, blockEugentDirectory,
  validateFilePath) together with the POSIX behaviour of Node's
  `path.resolve`/`path.relative`,
- `src/tools/command/execute_command.ts` (the synchronous entry phase of
  executeExecuteCommand).

JavaScript strings are `String` except in the path module, where `List Char`
is used so that prefix/containment reasoning stays structural.
-/

set_option maxHeartbeats 1600000

namespace Eugent

/-! ### JavaScript value model -/

/-- JSON values as produced by JavaScript `JSON.parse`. A number literal is
kept as mantissa and decimal exponent (the value `mantissa * 10 ^ exp10`): the
modelled code paths only ever compare numbers with zero or stringify integral
values, and this representation keeps all arithmetic kernel-computable. -/
inductive Json where
  | null : Json
  | bool (b : Bool) : Json
  | num (mantissa : Int) (exp10 : Int) : Json
  | str (s : String) : Json
  | arr (elems : List Json) : Json
  | obj (fields : List (String × Json)) : Json
deriving Repr, Inhabited

/-- JavaScript truthiness of a value: `null`, `false`, `0` and `""` are falsy;
objects and arrays (even empty ones) are truthy. -/
def jsTruthy : Json → Bool
  | .null => false
  | .bool b => b
  | .num m _ => !(m == 0)
  | .str s => !(s == "")
  | .arr _ => true
  | .obj _ => true

/-- Truthiness of a possibly-`undefined` value (`undefined` is falsy). -/
def jsTruthyOpt : Option Json → Bool
  | none => false
  | some v => jsTruthy v

/-- Truthiness of an optional string field (`undefined` and `""` are falsy). -/
def strTruthy : Option String → Bool
  | none => false
  | some s => !(s == "")

/-- `o.getD ""`: models the JavaScript idiom `s || ""` on an optional string
(the result is `""` exactly when the field is absent or already `""`). -/
def optStr (o : Option String) : String := o.getD ""

/-- Property access `v.k` on a decoded JSON value: objects look up own
properties (`none` = `undefined`); primitives have no such property. Access on
`null` throws a TypeError in JavaScript — callers model that case separately. -/
def jsGetField : Json → String → Option Json
  | .obj fields, k => fields.lookup k
  | _, _ => none

/-- Assignment `o[k] = v` on a JavaScript object: an existing key keeps its
position and gets the new value, a fresh key is appended. `JSON.parse` uses
this for duplicate keys (the later value wins). -/
def objSet (fields : List (String × Json)) (k : String) (v : Json) :
    List (String × Json) :=
  if fields.any (fun p => p.1 == k) then
    fields.map (fun p => if p.1 == k then (k, v) else p)
  else fields ++ [(k, v)]

/-- Substring test on character lists, used for JavaScript `includes`. -/
def listIsInfix (needle hay : List Char) : Bool :=
  match hay with
  | [] => needle.isEmpty
  | _ :: t => needle.isPrefixOf hay || listIsInfix needle t

/-- JavaScript `hay.includes(needle)`. -/
def strIncludes (hay needle : String) : Bool := listIsInfix needle.data hay.data

def lbrace : Char := Char.ofNat 123

def rbrace : Char := Char.ofNat 125

/-! ### JSON.parse

A direct model of the JSON grammar accepted by `JSON.parse`: values are
`null`/`true`/`false`, numbers (with optional sign, fraction, exponent, no
leading zeros), strings with escapes, arrays and objects, with insignificant
whitespace. Recursion is by an explicit fuel argument; `jsonParse` supplies
more fuel than any input can consume, so running out of fuel never decides an
input that the grammar accepts. -/

def isJsonWs (c : Char) : Bool := c == ' ' || c == '\t' || c == '\n' || c == Char.ofNat 13

def skipWs : List Char → List Char
  | [] => []
  | c :: cs => if isJsonWs c then skipWs cs else c :: cs

def digitVal (c : Char) : Nat := c.toNat - '0'.toNat

def takeDigits : List Char → (List Char × List Char)
  | [] => ([], [])
  | c :: cs =>
    if c.isDigit then
      let (ds, rest) := takeDigits cs
      (c :: ds, rest)
    else ([], c :: cs)

def digitsToNat (ds : List Char) : Nat := ds.foldl (fun n c => 10 * n + digitVal c) 0

/-- Integer part of a JSON number: `0` or a nonzero digit followed by digits. -/
def parseIntPart (cs : List Char) : Option (Nat × List Char) :=
  match cs with
  | [] => none
  | c :: _ =>
    if !c.isDigit then none
    else
      let (ds, rest) := takeDigits cs
      if ds.length > 1 && ds.head? == some '0' then none
      else some (digitsToNat ds, rest)

/-- Optional fraction part `.digits` of a JSON number: its digit value and its
digit count. -/
def parseFracPart (cs : List Char) : Option ((Nat × Nat) × List Char) :=
  match cs with
  | '.' :: rest =>
    let (ds, rest2) := takeDigits rest
    if ds.length == 0 then none
    else some ((digitsToNat ds, ds.length), rest2)
  | _ => some ((0, 0), cs)

/-- Optional exponent part `e`/`E` with optional sign of a JSON number. -/
def parseExpPart (cs : List Char) : Option (Int × List Char) :=
  match cs with
  | c :: rest =>
    if c == 'e' || c == 'E' then
      let (esign, rest2) :=
        match rest with
        | s :: r2 => if s == '+' then ((1 : Int), r2) else if s == '-' then (-1, r2) else (1, rest)
        | [] => ((1 : Int), rest)
      let (ds, rest3) := takeDigits rest2
      if ds.length == 0 then none else some (esign * (digitsToNat ds : Int), rest3)
    else some (0, cs)
  | [] => some (0, cs)

/-- A JSON number as mantissa and decimal exponent: the literal
`[-]ip[.frac][e ex]` denotes `mantissa * 10 ^ exp10` with
`mantissa = ±(ip * 10 ^ fracLen + frac)` and `exp10 = ex - fracLen`. -/
def parseNumber (cs : List Char) : Option ((Int × Int) × List Char) :=
  let (neg, cs1) :=
    match cs with
    | c :: rest => if c == '-' then (true, rest) else (false, cs)
    | [] => (false, [])
  match parseIntPart cs1 with
  | none => none
  | some (ip, cs2) =>
    match parseFracPart cs2 with
    | none => none
    | some ((fv, flen), cs3) =>
      match parseExpPart cs3 with
      | none => none
      | some (ex, cs4) =>
        let mag : Int := (ip * 10 ^ flen + fv : Nat)
        some ((if neg then -mag else mag, ex - (flen : Int)), cs4)

/-- Two-character escapes accepted inside JSON strings. -/
def simpleEscape (e : Char) : Option Char :=
  if e == '"' then some '"'
  else if e == '\\' then some '\\'
  else if e == '/' then some '/'
  else if e == 'b' then some (Char.ofNat 8)
  else if e == 'f' then some (Char.ofNat 12)
  else if e == 'n' then some '\n'
  else if e == 'r' then some (Char.ofNat 13)
  else if e == 't' then some '\t'
  else none

/-- Value of a hex digit, written on the code points (48-57 are the decimal
digits, 97-102 lowercase a-f, 65-70 uppercase A-F). -/
def hexVal (c : Char) : Option Nat :=
  let n := c.toNat
  if 48 ≤ n && n ≤ 57 then some (n - 48)
  else if 97 ≤ n && n ≤ 102 then some (n - 87)
  else if 65 ≤ n && n ≤ 70 then some (n - 55)
  else none

/-- Body of a JSON string after the opening quote, up to the closing quote.
Unescaped control characters are rejected, as `JSON.parse` does. (JavaScript
strings are UTF-16 and admit lone surrogates from `\uXXXX`; those code points
are not valid `Char`s, an edge the modelled code never exercises.) -/
def parseStringBody : Nat → List Char → Option (List Char × List Char)
  | 0, _ => none
  | _, [] => none
  | fuel + 1, c :: cs =>
    if c == '"' then some ([], cs)
    else if c == '\\' then
      match cs with
      | [] => none
      | e :: cs2 =>
        if e == 'u' then
          match cs2 with
          | h1 :: h2 :: h3 :: h4 :: cs6 =>
            match hexVal h1, hexVal h2, hexVal h3, hexVal h4 with
            | some a, some b, some c4, some d =>
              match parseStringBody fuel cs6 with
              | some (s, r) => some (Char.ofNat (((a * 16 + b) * 16 + c4) * 16 + d) :: s, r)
              | none => none
            | _, _, _, _ => none
          | _ => none
        else
          match simpleEscape e with
          | some d =>
            match parseStringBody fuel cs2 with
            | some (s, r) => some (d :: s, r)
            | none => none
          | none => none
    else if c.toNat < 32 then none
    else
      match parseStringBody fuel cs with
      | some (s, r) => some (c :: s, r)
      | none => none

mutual

def parseVal : Nat → List Char → Option (Json × List Char)
  | 0, _ => none
  | fuel + 1, cs =>
    match skipWs cs with
    | [] => none
    | c :: rest =>
      if c == 'n' then
        match rest with
        | 'u' :: 'l' :: 'l' :: r => some (.null, r)
        | _ => none
      else if c == 't' then
        match rest with
        | 'r' :: 'u' :: 'e' :: r => some (.bool true, r)
        | _ => none
      else if c == 'f' then
        match rest with
        | 'a' :: 'l' :: 's' :: 'e' :: r => some (.bool false, r)
        | _ => none
      else if c == '"' then
        match parseStringBody (fuel + 1) rest with
        | some (s, r) => some (.str (String.mk s), r)
        | none => none
      else if c == '[' then parseArrBody fuel (skipWs rest)
      else if c == lbrace then parseObjBody fuel (skipWs rest)
      else
        match parseNumber (c :: rest) with
        | some ((m, e), r) => some (.num m e, r)
        | none => none

def parseArrBody : Nat → List Char → Option (Json × List Char)
  | 0, _ => none
  | fuel + 1, cs =>
    match cs with
    | ']' :: r => some (.arr [], r)
    | _ => parseArrItems fuel cs []

def parseArrItems : Nat → List Char → List Json → Option (Json × List Char)
  | 0, _, _ => none
  | fuel + 1, cs, acc =>
    match parseVal fuel cs with
    | none => none
    | some (v, r) =>
      match skipWs r with
      | ',' :: r2 => parseArrItems fuel r2 (acc ++ [v])
      | ']' :: r2 => some (.arr (acc ++ [v]), r2)
      | _ => none

def parseObjBody : Nat → List Char → Option (Json × List Char)
  | 0, _ => none
  | fuel + 1, cs =>
    match cs with
    | [] => none
    | c :: r => if c == rbrace then some (.obj [], r) else parseObjItems fuel cs []

def parseObjItems : Nat → List Char → List (String × Json) → Option (Json × List Char)
  | 0, _, _ => none
  | fuel + 1, cs, acc =>
    match skipWs cs with
    | '"' :: r =>
      match parseStringBody (fuel + 1) r with
      | none => none
      | some (k, r2) =>
        match skipWs r2 with
        | ':' :: r3 =>
          match parseVal fuel r3 with
          | none => none
          | some (v, r4) =>
            let acc2 := objSet acc (String.mk k) v
            match skipWs r4 with
            | ',' :: r5 => parseObjItems fuel r5 acc2
            | c :: r5 => if c == rbrace then some (.obj acc2, r5) else none
            | [] => none
        | _ => none
    | _ => none

end

/-- `JSON.parse`: `none` models a thrown `SyntaxError`. -/
def jsonParse (s : String) : Option Json :=
  match parseVal (4 * (s.length + 1)) s.data with
  | some (v, rest) => if (skipWs rest).isEmpty then some v else none
  | none => none

/-! ### JSON.stringify -/

def hexDigit (n : Nat) : Char :=
  if n < 10 then Char.ofNat ('0'.toNat + n) else Char.ofNat ('a'.toNat + n - 10)

/-- Escaping of one character inside a `JSON.stringify`d string. -/
def escChar (c : Char) : List Char :=
  if c == '"' then ['\\', '"']
  else if c == '\\' then ['\\', '\\']
  else if c == '\n' then ['\\', 'n']
  else if c == Char.ofNat 13 then ['\\', 'r']
  else if c == '\t' then ['\\', 't']
  else if c == Char.ofNat 8 then ['\\', 'b']
  else if c == Char.ofNat 12 then ['\\', 'f']
  else if c.toNat < 32 then ['\\', 'u', '0', '0', hexDigit (c.toNat / 16), hexDigit (c.toNat % 16)]
  else [c]

def escapeJsonString (s : String) : List Char := (s.data.map escChar).flatten

def quoteJson (s : String) : String := String.mk ('"' :: (escapeJsonString s ++ ['"']))

/-- Number rendering for `JSON.stringify`; the modelled code only ever
stringifies integral values (every non-string payload member it produces is a
boolean), so exponents are rendered in scientific notation without further
normalisation. -/
def numToString (m e : Int) : String :=
  if e == 0 then toString m else toString m ++ "e" ++ toString e

mutual

/-- `JSON.stringify` (on values without `undefined` members, which is all the
modelled code produces). -/
def jsonStringify : Json → String
  | .null => "null"
  | .bool true => "true"
  | .bool false => "false"
  | .num m e => numToString m e
  | .str s => quoteJson s
  | .arr elems => "[" ++ stringifyItems elems ++ "]"
  | .obj fields => String.mk [lbrace] ++ stringifyFields fields ++ String.mk [rbrace]

/-- Comma-separated array elements of `JSON.stringify`. -/
def stringifyItems : List Json → String
  | [] => ""
  | [v] => jsonStringify v
  | v :: rest => jsonStringify v ++ "," ++ stringifyItems rest

/-- Comma-separated `"key":value` fields of `JSON.stringify`. -/
def stringifyFields : List (String × Json) → String
  | [] => ""
  | [(k, v)] => quoteJson k ++ ":" ++ jsonStringify v
  | (k, v) :: rest => quoteJson k ++ ":" ++ jsonStringify v ++ "," ++ stringifyFields rest

end

/-! ### Data model (src/lib/core/types.ts)

Optional string fields model JavaScript fields that may be `undefined`; their
truthiness tests go through `strTruthy` (`undefined` and `""` are both falsy,
matching the source's `if (!x)` guards). -/

structure ToolCallFunction where
  name : Option String
  arguments : String
deriving Repr, Inhabited

structure ToolCall where
  id : Option String
  function : ToolCallFunction
deriving Repr, Inhabited

structure Message where
  role : String
  content : Option String := none
  toolCalls : Option (List ToolCall) := none
  name : Option String := none
  toolCallId : Option String := none
  toolArgs : Option Json := none
deriving Repr, Inhabited

/-- The guard `msg.toolCalls && msg.toolCalls.length > 0`. -/
def hasToolCalls (m : Message) : Bool :=
  match m.toolCalls with
  | some tcs => decide (tcs.length > 0)
  | none => false

/-! ### Tool-call preprocessor (src/lib/chat/toolCallValidator.ts) -/

structure ToolCallValidationResult where
  valid : Bool
  toolName : Option String := none
  toolArgs : Option Json := none
  errorMessage : Option Message := none
deriving Repr, Inhabited

def isWordChar (c : Char) : Bool := c.isAlpha || c.isDigit || c == '_' || c == '-'

/-- DFA for the anchored regex over word characters and dots used by
`validateToolName` (one or more word characters, then any number of groups of
a dot followed by one or more word characters). The Boolean state records
whether the current dot-separated segment already has a character. -/
def regexScan : List Char → Bool → Bool
  | [], seen => seen
  | c :: cs, seen =>
    if isWordChar c then regexScan cs true
    else if c == '.' then seen && regexScan cs false
    else false

def toolNameRegexAccepts (s : String) : Bool := regexScan s.data false

/-- `validateToolName(toolName, toolCallId)`: the regex test plus the
(redundant) `toolName.includes("..")` check; on rejection a synthetic tool
message is returned instead of throwing. -/
def validateToolName (toolName toolCallId : String) : ToolCallValidationResult :=
  if !(toolNameRegexAccepts toolName) || strIncludes toolName ".." then
    { valid := false
      errorMessage := some
        { role := "tool"
          name := some toolName
          content := some (jsonStringify (.obj [("error", .str
            ("Invalid tool name format: \"" ++ toolName ++
              "\". Tool names must only contain letters, numbers, underscores, dashes, and non-consecutive dots. Do NOT include parentheses or function call syntax."))]))
          toolCallId := some toolCallId
          toolArgs := some (.obj []) } }
  else { valid := true, toolName := some toolName }

/-- `parseToolArguments(toolName, argumentsJson, toolCallId)`: `JSON.parse` on
the raw text; on a parse error a synthetic tool message embedding the raw text
verbatim. The SyntaxError text produced by the JavaScript engine is
implementation-defined, so it is the parameter `parseErrText`. -/
def parseToolArguments (toolName argumentsJson toolCallId : String)
    (parseErrText : String) : ToolCallValidationResult :=
  match jsonParse argumentsJson with
  | some v => { valid := true, toolName := some toolName, toolArgs := some v }
  | none =>
    { valid := false
      errorMessage := some
        { role := "tool"
          name := some toolName
          content := some (jsonStringify (.obj [("error", .str
            ("Invalid JSON in tool arguments: " ++ parseErrText ++
              ". Raw arguments: " ++ argumentsJson))]))
          toolCallId := some toolCallId
          toolArgs := some (.obj []) } }

structure ToolCallHistory where
  allToolCalls : List (String × Json)
  lastToolCall : Option (String × Json)
deriving Repr, Inhabited

/-- One step of the `extractToolCallHistory` scan. A tool message contributes
an entry iff: role is "tool", `toolArgs` is truthy, `content` is truthy,
the content parses as JSON, the parsed value is not `null` (accessing
`result.error` on `null` throws, and the surrounding catch swallows it), and
the parsed value has no `error` property (`result.error === undefined`, a
presence test, not a truthiness test). -/
def extractEntry (msg : Message) : Option (String × Json) :=
  if msg.role == "tool" && jsTruthyOpt msg.toolArgs then
    match msg.content with
    | none => none
    | some c =>
      if c == "" then none
      else
        match jsonParse c with
        | none => none
        | some .null => none
        | some v =>
          if (jsGetField v "error").isNone then
            some (optStr msg.name, msg.toolArgs.getD .null)
          else none
  else none

/-- `extractToolCallHistory(messages)`: all qualifying entries in order, and
the last one. -/
def extractToolCallHistory (messages : List Message) : ToolCallHistory :=
  messages.foldl
    (fun h msg =>
      match extractEntry msg with
      | some entry =>
        { allToolCalls := h.allToolCalls ++ [entry], lastToolCall := some entry }
      | none => h)
    { allToolCalls := [], lastToolCall := none }

/-! ### manage_todos result handler (src/hooks/useToolExecutor.ts) -/

/-- The `manage_todos` special case of `useToolExecutor.executeToolCall`:
returns `true` iff `setTodos(toolArgs.todos)` is invoked. The guard in the
source is `if (!result.error && toolArgs.todos)` — JavaScript *truthiness* of
`result.error`, not presence of the key. A `null` parse result, or `null`
`toolArgs` reached after a falsy `result.error`, throws a TypeError that the
surrounding catch swallows (no todo update either way). -/
def manageTodosApplies (toolName : String) (permissionDenied : Bool)
    (toolResult : String) (toolArgs : Json) : Bool :=
  if toolName == "manage_todos" && !permissionDenied then
    match jsonParse toolResult with
    | none => false
    | some .null => false
    | some v =>
      match toolArgs with
      | .null => false
      | _ => !(jsTruthyOpt (jsGetField v "error")) && jsTruthyOpt (jsGetField toolArgs "todos")
  else false

/-! ### Conversation validator (src/lib/validation/messageValidation.ts) -/

structure ValidationResult where
  valid : Bool
  errors : List String
  warnings : List String
deriving Repr, Inhabited, DecidableEq

/-- State of the single validation scan: accumulated errors and warnings, the
pending announced-but-unanswered tool-call ids (a JavaScript `Set`, in
insertion order), the running index and the previous message. -/
structure VState where
  errors : List String
  warnings : List String
  pending : List String
  idx : Nat
  prev : Option Message
deriving Repr, Inhabited

/-- JavaScript `Set.add` (no-op when present, appends otherwise). -/
def setAdd (s : List String) (k : String) : List String :=
  if s.contains k then s else s ++ [k]

/-- JavaScript `Set.delete`. -/
def setDelete (s : List String) (k : String) : List String :=
  s.filter (fun x => x != k)

/-- Per-tool-call checks of the assistant branch: a missing id is an error,
otherwise the id joins the pending set; a missing function name is a second,
independent error. -/
def toolCallScan (i : Nat) (st : List String × List String) (tc : ToolCall) :
    List String × List String :=
  let (errors, pending) := st
  let (errors2, pending2) :=
    if !(strTruthy tc.id) then (errors ++ [s!"Tool call in message {i} is missing an id"], pending)
    else (errors, setAdd pending (optStr tc.id))
  if !(strTruthy tc.function.name) then
    (errors2 ++ [s!"Tool call in message {i} is missing function name"], pending2)
  else (errors2, pending2)

/-- One iteration of the `validateMessages` scan. -/
def vstep (st : VState) (msg : Message) : VState :=
  let i := st.idx
  let prevRole := (st.prev.map (fun m => m.role)).getD ""
  let base : VState := { st with idx := i + 1, prev := some msg }
  if msg.role == "" then
    { base with errors := st.errors ++ [s!"Message at index {i} is missing a role"] }
  else if msg.role == "system" then
    let warnings :=
      if i > 0 && !(prevRole == "system") then
        st.warnings ++ [s!"System message at index {i} appears after non-system messages"]
      else st.warnings
    let errors :=
      if !(strTruthy msg.content) then
        st.errors ++ [s!"System message at index {i} is missing content"]
      else st.errors
    { base with errors := errors, warnings := warnings }
  else if msg.role == "user" then
    let errors :=
      if !(strTruthy msg.content) || (optStr msg.content).trim == "" then
        st.errors ++ [s!"User message at index {i} has empty content"]
      else st.errors
    let errors2 :=
      if prevRole == "user" then
        let j := i - 1
        errors ++ [s!"User message at index {i} follows another user message (index {j})"]
      else errors
    { base with errors := errors2 }
  else if msg.role == "assistant" then
    if hasToolCalls msg then
      let (errors, pending) := (msg.toolCalls.getD []).foldl (toolCallScan i) (st.errors, st.pending)
      { base with errors := errors, pending := pending }
    else base
  else if msg.role == "tool" then
    let errors :=
      if !(strTruthy msg.name) then st.errors ++ [s!"Tool message at index {i} is missing name"]
      else st.errors
    if !(strTruthy msg.toolCallId) then
      { base with errors := errors ++ [s!"Tool message at index {i} is missing toolCallId"] }
    else
      let tid := optStr msg.toolCallId
      if !(st.pending.contains tid) then
        let warnings := st.warnings ++
          [s!"Tool message at index {i} has toolCallId \"{tid}\" which was not found in previous assistant message"]
        { base with errors := errors, warnings := warnings }
      else { base with errors := errors, pending := setDelete st.pending tid }
  else
    let r := msg.role
    { base with errors := st.errors ++ [s!"Message at index {i} has invalid role: {r}"] }

/-- The scan's initial state. -/
def vInit : VState := { errors := [], warnings := [], pending := [], idx := 0, prev := none }

/-- `validateMessages(messages)`: the single scan, then one aggregated error if
any announced tool-call ids are still pending. -/
def validateMessages (messages : List Message) : ValidationResult :=
  if messages.length == 0 then { valid := true, errors := [], warnings := [] }
  else
    let st := messages.foldl vstep vInit
    let errors :=
      if st.pending.length > 0 then
        let n := st.pending.length
        let ids := String.intercalate ", " st.pending
        st.errors ++ [s!"{n} tool call(s) have no corresponding tool response. Tool call IDs: {ids}"]
      else st.errors
    { valid := errors.length == 0, errors := errors, warnings := st.warnings }

/-! ### Conversation healer (src/lib/validation/messageValidation.ts) -/

structure PendingEntry where
  name : String
  index : Nat
deriving Repr, Inhabited, DecidableEq

/-- A JavaScript `Map` in insertion order. -/
abbrev PendingMap := List (String × PendingEntry)

/-- `Map.set`: an existing key keeps its position and gets the new value, a
fresh key is appended. -/
def mapSet (m : PendingMap) (k : String) (v : PendingEntry) : PendingMap :=
  if m.any (fun p => p.1 == k) then m.map (fun p => if p.1 == k then (k, v) else p)
  else m ++ [(k, v)]

/-- `Map.delete`. -/
def mapDelete (m : PendingMap) (k : String) : PendingMap :=
  m.filter (fun p => p.1 != k)

/-- The healer records a tool call iff both its id and its function name are
truthy. -/
def healTcScan (i : Nat) (m : PendingMap) (tc : ToolCall) : PendingMap :=
  if strTruthy tc.id && strTruthy tc.function.name then
    mapSet m (optStr tc.id) { name := optStr tc.function.name, index := i }
  else m

/-- One iteration of the healer's orphan scan. -/
def healMsgScan (st : Nat × PendingMap) (msg : Message) : Nat × PendingMap :=
  let (i, m) := st
  let m2 :=
    if msg.role == "assistant" && hasToolCalls msg then
      (msg.toolCalls.getD []).foldl (healTcScan i) m
    else m
  let m3 :=
    if msg.role == "tool" && strTruthy msg.toolCallId then mapDelete m2 (optStr msg.toolCallId)
    else m2
  (i + 1, m3)

/-- The `pendingToolCalls` map of `healOrphanedToolCalls` after its scan. -/
def healScan (messages : List Message) : PendingMap :=
  (messages.foldl healMsgScan (0, [])).2

/-- `orphansByIndex`: a `Map<number, Array>` grouping orphans by announcing
index; pushes append in place, fresh keys are appended. -/
abbrev OrphanGroups := List (Nat × List (String × String))

def addOrphan (groups : OrphanGroups) (i : Nat) (idName : String × String) : OrphanGroups :=
  match groups with
  | [] => [(i, [idName])]
  | (j, xs) :: rest =>
    if i == j then (j, xs ++ [idName]) :: rest
    else (j, xs) :: addOrphan rest i idName

def groupOrphans (pending : PendingMap) : OrphanGroups :=
  pending.foldl (fun gs p => addOrphan gs p.2.index (p.1, p.2.name)) []

/-- `Array.prototype.sort((a, b) => b - a)` on the (distinct) group keys. -/
def insertDesc (x : Nat) : List Nat → List Nat
  | [] => [x]
  | y :: ys => if x ≥ y then x :: y :: ys else y :: insertDesc x ys

def sortDesc (l : List Nat) : List Nat := l.foldr insertDesc []

/-- The sentinel tool message the healer splices in for one orphan. -/
def orphanToolMessage (idName : String × String) : Message :=
  { role := "tool"
    name := some idName.2
    content := some (jsonStringify (.obj [("error", .str
      "Tool call was orphaned (no response was recorded). This has been automatically resolved.")]))
    toolCallId := some idName.1
    toolArgs := some (.obj []) }

/-- `array.splice(pos, 0, ...xs)`. -/
def insertAt (l : List Message) (pos : Nat) (xs : List Message) : List Message :=
  l.take pos ++ xs ++ l.drop pos

/-- `healOrphanedToolCalls(messages)`: scan for orphans; if none, return the
input unchanged; otherwise splice one sentinel response per orphan right after
the announcing assistant message, processing indices in descending order. -/
def healOrphanedToolCalls (messages : List Message) : List Message :=
  let pending := healScan messages
  if pending.isEmpty then messages
  else
    let groups := groupOrphans pending
    let sortedIndices := sortDesc (groups.map Prod.fst)
    sortedIndices.foldl
      (fun healed i =>
        let orphans := (groups.lookup i).getD []
        insertAt healed (i + 1) (orphans.map orphanToolMessage))
      messages

/-- Normal form of the healer's descending splice pass: after the message at
absolute index `k` with `P k` set, the block `f k` is inserted. -/
def weave (f : Nat → List Message) (P : Nat → Bool) : List Message → Nat → List Message
  | [], _ => []
  | m :: rest, k => m :: ((if P k then f k else []) ++ weave f P rest (k + 1))

/-! ### Abort handler (src/lib/chat/errorHandlers.ts) -/

def interruptedMessage : Message :=
  { role := "assistant", content := some "[Request interrupted by user]\n" }

/-- The "Operation aborted by user" result `handleAbortError` appends for one
tool call of the last assistant message. -/
def abortedToolMessage (tc : ToolCall) : Message :=
  { role := "tool"
    name := tc.function.name
    content := some (jsonStringify (.obj [("error", .str "Operation aborted by user")]))
    toolCallId := tc.id
    toolArgs := some (.obj []) }

/-- `handleAbortError(messages)`: only when the *last* message is an assistant
message with a nonempty `toolCalls` list does it append aborted results (one
per tool call of that message); in every other case it appends only the
interruption notice. -/
def handleAbortError (messages : List Message) : List Message :=
  match messages.getLast? with
  | some lastMessage =>
    if lastMessage.role == "assistant" && hasToolCalls lastMessage then
      messages ++ (lastMessage.toolCalls.getD []).map abortedToolMessage ++ [interruptedMessage]
    else messages ++ [interruptedMessage]
  | none => messages ++ [interruptedMessage]

/-! ### Announce/answer events and reference properties

Derived definitions used to state the transcript properties: a message
*announces* an id when it is an assistant message carrying a tool call with
that (truthy) id, and *answers* it when it is a tool message whose (truthy)
`toolCallId` equals it. `presentIn` replays the scan semantics shared by the
validator's pending set and the healer's pending map: an id is present at the
end iff its last announce is not followed by an answer. -/

/-- The healer's announce event: both id and function name must be truthy. -/
def healAnnounces (id : String) (m : Message) : Bool :=
  m.role == "assistant" &&
    (m.toolCalls.getD []).any (fun tc =>
      strTruthy tc.id && strTruthy tc.function.name && optStr tc.id == id)

/-- The validator's announce event: only the id must be truthy. -/
def vAnnounces (id : String) (m : Message) : Bool :=
  m.role == "assistant" &&
    (m.toolCalls.getD []).any (fun tc => strTruthy tc.id && optStr tc.id == id)

/-- Answer event, shared by validator and healer. -/
def answersId (id : String) (m : Message) : Bool :=
  m.role == "tool" && strTruthy m.toolCallId && optStr m.toolCallId == id

def presentStep (ann ans : Message → Bool) (b : Bool) (m : Message) : Bool :=
  if ans m then false else if ann m then true else b

def presentIn (ann ans : Message → Bool) (msgs : List Message) : Bool :=
  msgs.foldl (presentStep ann ans) false

/-- An id the healer considers orphaned in a transcript. -/
def orphanedIn (id : String) (msgs : List Message) : Bool :=
  presentIn (healAnnounces id) (answersId id) msgs

/-- The announced-but-unanswered tool-call ids of a transcript, in announcement
order: the reference notion of "unmatched ids" for the validity property. -/
def unansweredIds : List Message → List String
  | [] => []
  | m :: rest =>
    (if m.role == "assistant" then
      (m.toolCalls.getD []).filterMap (fun tc =>
        if strTruthy tc.id && !(rest.any (answersId (optStr tc.id))) then some (optStr tc.id)
        else none)
    else []) ++ unansweredIds rest

/-- Structural wellformedness apart from tool-call matching: known roles, no
empty or consecutive user messages, system messages with content, tool calls
with ids and names, tool messages with name and toolCallId. These are exactly
the per-message error conditions of `validateMessages` other than the final
pending check. -/
def wellformedMsg (prevRole : Option String) (m : Message) : Bool :=
  (m.role == "system" && strTruthy m.content) ||
  (m.role == "user" && strTruthy m.content && !((optStr m.content).trim == "") &&
    !(prevRole.getD "" == "user")) ||
  (m.role == "assistant" &&
    (m.toolCalls.getD []).all (fun tc => strTruthy tc.id && strTruthy tc.function.name)) ||
  (m.role == "tool" && strTruthy m.name && strTruthy m.toolCallId)

def wellformedFrom (prev : Option String) : List Message → Bool
  | [] => true
  | m :: rest => wellformedMsg prev m && wellformedFrom (some m.role) rest

def StructurallyClean (msgs : List Message) : Prop := wellformedFrom none msgs = true

/-! ### Path validator (src/lib/security/pathValidator.ts)

Paths are `List Char` so that the JavaScript string-level operations
(`startsWith`, concatenation) stay structural. `pathResolve`/`pathRelative`
model Node's POSIX `path.resolve(cwd, p)` / `path.relative(cwd, to)` for an
absolute `cwd`: split on `/`, drop empty and `.` segments, pop on `..`. -/

abbrev JsPath := List Char

def splitSlash : JsPath → List JsPath
  | [] => [[]]
  | c :: cs =>
    match splitSlash cs with
    | s :: rest => if c == '/' then [] :: s :: rest else (c :: s) :: rest
    | [] => [[c]]

/-- One segment of path normalisation: empty and `.` segments vanish, `..`
pops (never above the root), anything else is kept. -/
def normStep (acc : List JsPath) (seg : JsPath) : List JsPath :=
  if seg == ([] : JsPath) || seg == ['.'] then acc
  else if seg == ['.', '.'] then acc.dropLast
  else acc ++ [seg]

def normSegs (segs : List JsPath) : List JsPath := segs.foldl normStep []

def joinSegs : List JsPath → JsPath
  | [] => []
  | [s] => s
  | s :: rest => s ++ '/' :: joinSegs rest

def joinAbs (segs : List JsPath) : JsPath := '/' :: joinSegs segs

/-- Node `path.resolve(cwd, p)` for an absolute `cwd`. -/
def pathResolve (cwd p : JsPath) : JsPath :=
  if p.head? == some '/' then joinAbs (normSegs (splitSlash p))
  else joinAbs (normSegs (splitSlash (cwd ++ '/' :: p)))

/-- JavaScript `s.startsWith(prefix)`. -/
def jsStartsWith (s pre : JsPath) : Bool := pre.isPrefixOf s

def dropCommon : List JsPath → List JsPath → List JsPath × List JsPath
  | x :: xs, y :: ys => if x == y then dropCommon xs ys else (x :: xs, y :: ys)
  | xs, ys => (xs, ys)

/-- Node `path.relative(cwd, target)` for absolute arguments. -/
def pathRelative (cwd target : JsPath) : JsPath :=
  let f := normSegs (splitSlash cwd)
  let t := normSegs (splitSlash target)
  let (f2, t2) := dropCommon f t
  joinSegs (List.replicate f2.length ['.', '.'] ++ t2)

structure PathValidationResult where
  valid : Bool
  absolutePath : Option JsPath := none
  error : Option String := none
deriving Repr, Inhabited, DecidableEq

/-- `PathValidator.validatePath(inputPath, operation)`: resolve against the
process root, then require the result to start with it — a plain string-prefix
test with no path-separator boundary. -/
def validatePath (cwd inputPath : JsPath) (operation : String) : PathValidationResult :=
  let absolutePath := pathResolve cwd inputPath
  if !(jsStartsWith absolutePath cwd) then
    { valid := false
      error := some ("Access denied: Cannot " ++ operation ++ " outside the current directory") }
  else { valid := true, absolutePath := some absolutePath }

structure BlockResult where
  blocked : Bool
  error : Option String := none
deriving Repr, Inhabited, DecidableEq

/-- `PathValidator.blockEugentDirectory(absolutePath, operation)`. -/
def blockEugentDirectory (cwd absolutePath : JsPath) (operation : String) : BlockResult :=
  let relativePath := pathRelative cwd absolutePath
  if jsStartsWith relativePath (".eugent/".data) || relativePath == ".eugent".data then
    { blocked := true
      error := some ("Access denied: Cannot " ++ operation ++ " .eugent configuration directory") }
  else { blocked := false }

inductive FsKind where
  | file : FsKind
  | directory : FsKind
deriving Repr, Inhabited, DecidableEq

structure ResourceValidationResult where
  valid : Bool
  stats : Option FsKind := none
  error : Option String := none
deriving Repr, Inhabited, DecidableEq

/-- `PathValidator.validateResourceType`: existence and kind checks through the
abstract filesystem `fs` (`fs p` is the kind of the entry at `p`, `none` when
`fs.existsSync` is false; the model keeps the kind as the `stats`). -/
def validateResourceType (fs : JsPath → Option FsKind) (absolutePath : JsPath)
    (expectedType : FsKind) (inputPath : JsPath) : ResourceValidationResult :=
  match fs absolutePath with
  | none =>
    let resource := if expectedType == FsKind.file then "File" else "Directory"
    { valid := false, error := some (resource ++ " not found: " ++ String.mk inputPath) }
  | some stats =>
    if stats == expectedType then { valid := true, stats := some stats }
    else
      let ty := if expectedType == FsKind.file then "file" else "directory"
      { valid := false, stats := some stats
        error := some ("Path is not a " ++ ty ++ ": " ++ String.mk inputPath) }

structure GitignoreCheckResult where
  allowed : Bool
  error : Option String := none
deriving Repr, Inhabited, DecidableEq

/-- `PathValidator.checkGitignoreAccess`: `ignoreMatch` stands for
`matchesGitignorePattern(·, loadGitignorePatterns(cwd))` — the pattern matcher
applied to the patterns of the root gitignore, an environment parameter here
because pattern loading reads the filesystem. -/
def checkGitignoreAccess (ignoreMatch : JsPath → Bool) (cwd absolutePath : JsPath)
    (includeGitignored : Bool) (operation : String) : GitignoreCheckResult :=
  if includeGitignored then { allowed := true }
  else
    let relativePath := pathRelative cwd absolutePath
    if ignoreMatch relativePath then
      { allowed := false
        error := some ("Access denied: Cannot " ++ operation ++ " gitignored path: " ++
          String.mk relativePath) }
    else { allowed := true }

structure FileValidationResult where
  valid : Bool
  absolutePath : Option JsPath := none
  stats : Option FsKind := none
  error : Option String := none
deriving Repr, Inhabited, DecidableEq

/-- `PathValidator.validateFilePath(inputPath, operation, includeGitignored)`:
path escape, then the reserved `.eugent` directory, then file existence and
kind, then gitignore — in that order. -/
def validateFilePath (cwd : JsPath) (fs : JsPath → Option FsKind)
    (ignoreMatch : JsPath → Bool) (inputPath : JsPath) (operation : String)
    (includeGitignored : Bool := false) : FileValidationResult :=
  let pathCheck := validatePath cwd inputPath operation
  if !pathCheck.valid then { valid := false, error := pathCheck.error }
  else
    let absolutePath := pathCheck.absolutePath.getD []
    let eugentCheck := blockEugentDirectory cwd absolutePath operation
    if eugentCheck.blocked then { valid := false, error := eugentCheck.error }
    else
      let resourceCheck := validateResourceType fs absolutePath FsKind.file inputPath
      if !resourceCheck.valid then
        { valid := false, stats := resourceCheck.stats, error := resourceCheck.error }
      else
        let gitignoreCheck :=
          checkGitignoreAccess ignoreMatch cwd absolutePath includeGitignored operation
        if !gitignoreCheck.allowed then { valid := false, error := gitignoreCheck.error }
        else { valid := true, absolutePath := some absolutePath, stats := resourceCheck.stats }

/-! ### Command execution entry (src/tools/command/execute_command.ts) -/

structure ExecuteCommandArgs where
  command : String
  timeout : Option Nat := none
deriving Repr, Inhabited, DecidableEq

inductive CommandStart where
  | shortCircuit (result : String) : CommandStart
  | spawned (command : String) (timeoutMs : Nat) : CommandStart
deriving Repr, Inhabited, DecidableEq

/-- The payload resolved when the signal is already aborted on entry. -/
def preAbortPayload (command : String) : Json :=
  .obj
    [("error", .str
        "ABORTED: User pressed ESC to stop this command. The command was intentionally cancelled and did not complete."),
      ("aborted", .bool true), ("command", .str command),
      ("stdout", .str ""), ("stderr", .str "")]

/-- Synchronous entry phase of `executeExecuteCommand`: when the context's
signal is already aborted (`context?.signal?.aborted`), the promise resolves at
once with the aborted payload and `spawn` is never reached; otherwise the child
process is spawned with the (defaulted) timeout. `signal = none` models a
context without a signal; its asynchronous supervision is beyond this model. -/
def executeCommandEntry (args : ExecuteCommandArgs) (signal : Option Bool) : CommandStart :=
  let timeout := args.timeout.getD 30000
  if signal.getD false then .shortCircuit (jsonStringify (preAbortPayload args.command))
  else .spawned args.command timeout

/-! ### Concrete transcripts used by counterexamples and witnesses -/

def mkToolCall (id nm : String) : ToolCall :=
  { id := some id, function := { name := some nm, arguments := "\x7b\x7d" } }

/-- A tool message answering `id` with an empty-object payload. -/
def mkToolAnswer (id nm : String) : Message :=
  { role := "tool", name := some nm, content := some "\x7b\x7d", toolCallId := some id
    toolArgs := some (.obj []) }

/-- One assistant message announcing two tool calls, neither answered. -/
def c2Transcript : List Message :=
  [ { role := "assistant", content := some "ok"
      toolCalls := some [mkToolCall "call-1" "read_file", mkToolCall "call-2" "grep"] } ]

/-- One assistant message announcing the same id twice, answered once. -/
def dupIdTranscript (id nm : String) : List Message :=
  [ { role := "assistant", content := some "ok"
      toolCalls := some [mkToolCall id nm, mkToolCall id nm] },
    mkToolAnswer id nm ]

/-- An assistant message with two tool calls of which only the first has been
answered, so it is no longer the last transcript entry. -/
def c4Transcript : List Message :=
  [ { role := "assistant", content := some "ok"
      toolCalls := some [mkToolCall "id1" "t1", mkToolCall "id2" "t2"] },
    mkToolAnswer "id1" "t1" ]

/-- A lone assistant message announcing one unanswered tool call (the case
`handleAbortError` does heal). -/
def lastAssistantTranscript : List Message :=
  [ { role := "assistant", content := some "ok", toolCalls := some [mkToolCall "idA" "tA"] } ]

/-- A tool-result message carrying `{"error":0}` (error key present, falsy). -/
def falsyErrorToolMessage : Message :=
  { role := "tool", name := some "bad_tool", content := some "\x7b\"error\":0\x7d"
    toolCallId := some "call-1", toolArgs := some (.obj []) }

/-! ### Spec-side reference predicates

These state the properties the claims quantify over; the theorems relate them
to the embedded source functions. -/

/-- A word-character segment as the spec describes it: nonempty, every
character in `[A-Za-z0-9_-]`. -/
def GoodSeg (seg : List Char) : Prop := seg ≠ [] ∧ ∀ c ∈ seg, isWordChar c = true

/-- Segments joined by single dots. -/
def joinDots : List (List Char) → List Char
  | [] => []
  | [s] => s
  | s :: rest => s ++ '.' :: joinDots rest

/-- "Made of segments matching `[A-Za-z0-9_-]+` joined by single dots". -/
def SegFormatStrict (cs : List Char) : Prop :=
  ∃ segs : List (List Char), segs ≠ [] ∧ (∀ seg ∈ segs, GoodSeg seg) ∧ cs = joinDots segs

/-- Variant reached mid-scan: the first segment may be empty. -/
def SegFormatLoose (cs : List Char) : Prop :=
  ∃ segs : List (List Char), segs ≠ [] ∧ (∀ seg ∈ segs, ∀ c ∈ seg, isWordChar c = true) ∧
    (∀ seg ∈ segs.tail, seg ≠ []) ∧ cs = joinDots segs

def SegFormat (s : String) : Prop := SegFormatStrict s.data

/-- Every tool-call id a transcript announces (in the validator's sense) is
answered by a later tool message. -/
def AllAnnouncedAnswered (msgs : List Message) : Prop :=
  ∀ pre m post, msgs = pre ++ m :: post →
    ∀ id, vAnnounces id m = true → ∃ m2 ∈ post, answersId id m2 = true

/-- A well-formed path segment: nonempty, not `.` or `..`, slash-free. -/
def CleanSeg (seg : JsPath) : Prop :=
  seg ≠ [] ∧ seg ≠ ['.'] ∧ seg ≠ ['.', '.'] ∧ '/' ∉ seg

/-! ## Theorems -/

/-! ### Generic string/list helpers -/

theorem data_mk (l : List Char) : (String.mk l).data = l := rfl

theorem isPrefixOf_self_append (a b : List Char) : a.isPrefixOf (a ++ b) = true := by
  induction a with
  | nil => simp [List.isPrefixOf]
  | cons c t ih => simp [List.isPrefixOf, ih]

theorem isPrefixOf_extend (n h y : List Char) (hp : n.isPrefixOf h = true) :
    n.isPrefixOf (h ++ y) = true := by
  induction n generalizing h with
  | nil => simp [List.isPrefixOf]
  | cons c t ih =>
    cases h with
    | nil => simp [List.isPrefixOf] at hp
    | cons c2 t2 =>
      simp only [List.isPrefixOf, Bool.and_eq_true, beq_iff_eq] at hp ⊢
      exact ⟨hp.1, ih t2 hp.2⟩

theorem listIsInfix_self_append (n y : List Char) : listIsInfix n (n ++ y) = true := by
  cases n with
  | nil =>
    cases y with
    | nil => rfl
    | cons c t => simp [listIsInfix, List.isPrefixOf]
  | cons c t => simp [listIsInfix, List.isPrefixOf, isPrefixOf_self_append]

theorem listIsInfix_skip (n x h : List Char) (hh : listIsInfix n h = true) :
    listIsInfix n (x ++ h) = true := by
  induction x with
  | nil => simpa using hh
  | cons c t ih => simp [listIsInfix, ih]

theorem listIsInfix_extend (n h y : List Char) (hh : listIsInfix n h = true) :
    listIsInfix n (h ++ y) = true := by
  induction h with
  | nil =>
    simp only [listIsInfix, List.isEmpty_iff] at hh
    subst hh
    cases y with
    | nil => rfl
    | cons c t => simp [listIsInfix, List.isPrefixOf]
  | cons c t ih =>
    simp only [listIsInfix, Bool.or_eq_true] at hh ⊢
    rcases hh with hp | hi
    · exact Or.inl (by simpa using isPrefixOf_extend _ _ y hp)
    · exact Or.inr (ih hi)

/-! ### C10: pre-aborted command execution short-circuits -/

/-- C10: if the cancellation signal is already set when `executeExecuteCommand`
is invoked, the invocation short-circuits to the aborted outcome — a payload
with `aborted = true`, the echoed command, and empty stdout and stderr buffers
— without spawning any process (the entry phase resolves with `shortCircuit`,
never reaching `spawned`). -/
theorem c10_pre_abort_short_circuit (args : ExecuteCommandArgs) :
    executeCommandEntry args (some true) =
      CommandStart.shortCircuit (jsonStringify (preAbortPayload args.command)) ∧
    jsGetField (preAbortPayload args.command) "aborted" = some (.bool true) ∧
    jsGetField (preAbortPayload args.command) "command" = some (.str args.command) ∧
    jsGetField (preAbortPayload args.command) "stdout" = some (.str "") ∧
    jsGetField (preAbortPayload args.command) "stderr" = some (.str "") :=
  ⟨rfl, rfl, rfl, rfl, rfl⟩

/-! ### C6: the containment check is a raw string-prefix test -/

/-- C6: there is an input path that resolves strictly outside the project root
yet is accepted: under root `/a/proj` the input `../proj2/f.txt` resolves to
`/a/proj2/f.txt`, which is neither the root nor below `/a/proj/`, but
`absolutePath.startsWith(cwd)` holds, so `validatePath` reports it valid. -/
theorem c6_prefix_containment_hole :
    validatePath "/a/proj".data "../proj2/f.txt".data "read" =
      { valid := true, absolutePath := some "/a/proj2/f.txt".data } ∧
    pathResolve "/a/proj".data "../proj2/f.txt".data = "/a/proj2/f.txt".data ∧
    "/a/proj2/f.txt".data ≠ "/a/proj".data ∧
    jsStartsWith "/a/proj2/f.txt".data "/a/proj/".data = false := by
  refine ⟨?_, ?_, ?_, ?_⟩ <;> decide

/-! ### C1: the error-key convention across consumers -/

/-- Shared lemma: `extractToolCallHistory`'s per-message filter really is
presence-based — any tool message whose decoded payload carries the key
`error`, with any value whatsoever, is excluded. -/
theorem extractEntry_none_of_error_key (msg : Message) (c : String) (v : Json)
    (hc : msg.content = some c) (hp : jsonParse c = some v)
    (he : (jsGetField v "error").isSome = true) :
    extractEntry msg = none := by
  unfold extractEntry
  split
  · rw [hc]
    by_cases hcc : c = ""
    · simp [hcc]
    · simp only [beq_iff_eq, hcc, if_false, hp]
      cases v with
      | null => simp [jsGetField] at he
      | bool b => simp [jsGetField] at he
      | num m e => simp [jsGetField] at he
      | str s => simp [jsGetField] at he
      | arr l => simp [jsGetField] at he
      | obj fl =>
        cases hgf : jsGetField (.obj fl) "error" with
        | none => rw [hgf] at he; simp at he
        | some w => simp [hgf]
  · rfl

/-- C1 (code_bug evaluation): `extractToolCallHistory` classifies the payload
`{"error":0}` as failure and drops it from the successful-call history, but
the `manage_todos` result handler tests `!result.error` — truthiness — so on
the very same payloads `{"error":0}` and `{"error":""}` it *does* apply the
todos, contradicting the load-bearing convention that an `error` key denotes
failure regardless of the value's truthiness. -/
theorem c1_error_key_convention :
    extractEntry falsyErrorToolMessage = none ∧
    (extractToolCallHistory [falsyErrorToolMessage]).allToolCalls = [] ∧
    (extractToolCallHistory [falsyErrorToolMessage]).lastToolCall = none ∧
    manageTodosApplies "manage_todos" false "\x7b\"error\":0\x7d"
      (Json.obj [("todos", Json.arr [])]) = true ∧
    manageTodosApplies "manage_todos" false "\x7b\"error\":\"\"\x7d"
      (Json.obj [("todos", Json.arr [])]) = true :=
  ⟨rfl, rfl, rfl, rfl, rfl⟩

/-! ### C8: argument parsing -/

/-- C8 counterexample: decoding the raw text `"null"` neither fails nor is
rejected as non-object — `parseToolArguments` reports success with `null` as
the decoded arguments and no synthetic error message. -/
theorem c8_null_decodes_successfully :
    (parseToolArguments "manage_todos" "null" "call-1" "err").valid = true ∧
    (parseToolArguments "manage_todos" "null" "call-1" "err").toolArgs = some Json.null ∧
    (parseToolArguments "manage_todos" "null" "call-1" "err").errorMessage = none :=
  ⟨rfl, rfl, rfl⟩

/-- C8 (amended): decoding `"{"` fails and the synthetic tool message contains
the raw text `"{"` verbatim (shown generically for every engine error text,
and with the full `". Raw arguments: {"` context for the engine's actual
message); decoding `"{}"` succeeds with the empty object; decoding
`"undefined"` fails; but decoding `"null"` succeeds with `null` as the
arguments — it is not rejected as non-object. -/
theorem c8_argument_parsing (tn cid em : String) :
    ((parseToolArguments tn "\x7b" cid em).valid = false ∧
      ∃ m c, (parseToolArguments tn "\x7b" cid em).errorMessage = some m ∧
        m.content = some c ∧ strIncludes c "\x7b" = true) ∧
    (∃ m c, (parseToolArguments tn "\x7b" cid "Unexpected end of JSON input").errorMessage =
        some m ∧ m.content = some c ∧ strIncludes c ". Raw arguments: \x7b" = true) ∧
    ((parseToolArguments tn "\x7b\x7d" cid em).valid = true ∧
      (parseToolArguments tn "\x7b\x7d" cid em).toolArgs = some (Json.obj [])) ∧
    (parseToolArguments tn "undefined" cid em).valid = false ∧
    ((parseToolArguments tn "null" cid em).valid = true ∧
      (parseToolArguments tn "null" cid em).toolArgs = some Json.null) := by
  refine ⟨⟨rfl, ?_⟩, ?_, ⟨rfl, rfl⟩, rfl, ⟨rfl, rfl⟩⟩
  · refine ⟨_, _, rfl, rfl, ?_⟩
    unfold strIncludes
    rw [show ("\x7b" : String).data = [lbrace] from rfl]
    rw [show (jsonStringify (.obj [("error", .str
      ("Invalid JSON in tool arguments: " ++ em ++ ". Raw arguments: " ++ "\x7b"))])).data =
      [lbrace] ++ ((stringifyFields [("error", .str
        ("Invalid JSON in tool arguments: " ++ em ++ ". Raw arguments: " ++ "\x7b"))] ++
        String.mk [rbrace]).data) from by
      simp [jsonStringify, String.data_append, data_mk]]
    exact listIsInfix_self_append _ _
  · refine ⟨_, _, rfl, rfl, ?_⟩
    decide

/-! ### C9: tool-name validation -/

theorem isWordChar_ne_dot {c : Char} (h : isWordChar c = true) : c ≠ '.' := by
  intro he
  subst he
  exact absurd h (by decide)

theorem joinDots_word_cons (c : Char) (s : List Char) (segs : List (List Char)) :
    joinDots ((c :: s) :: segs) = c :: joinDots (s :: segs) := by
  cases segs <;> simp [joinDots]

theorem joinDots_nil_cons (segs : List (List Char)) (h : segs ≠ []) :
    joinDots ([] :: segs) = '.' :: joinDots segs := by
  cases segs with
  | nil => exact absurd rfl h
  | cons a t => simp [joinDots]

theorem joinDots_eq_nil {segs : List (List Char)} (h : segs ≠ []) (hj : joinDots segs = []) :
    segs = [[]] := by
  cases segs with
  | nil => exact absurd rfl h
  | cons s rest =>
    cases rest with
    | nil =>
      simp only [joinDots] at hj
      subst hj
      rfl
    | cons r t => simp [joinDots] at hj

theorem segFormatStrict_nil : ¬SegFormatStrict [] := by
  rintro ⟨segs, hne, hgood, hj⟩
  have hs := joinDots_eq_nil hne hj.symm
  subst hs
  exact absurd rfl (hgood [] (by simp)).1

theorem segFormatLoose_nil : SegFormatLoose [] :=
  ⟨[[]], by simp, by simp, by simp, rfl⟩

theorem segFormatStrict_cons (c : Char) (cs : List Char) :
    SegFormatStrict (c :: cs) ↔ (isWordChar c = true ∧ SegFormatLoose cs) := by
  constructor
  · rintro ⟨segs, hne, hgood, hj⟩
    match segs, hne with
    | s1 :: rest, _ =>
      have hg1 := hgood s1 (by simp)
      match s1, hg1.1 with
      | c1 :: s1', _ =>
        rw [joinDots_word_cons] at hj
        injection hj with hc hcs
        subst hc
        refine ⟨hg1.2 c (by simp), s1' :: rest, by simp, ?_, ?_, hcs⟩
        · intro seg hseg
          rcases List.mem_cons.mp hseg with h1 | h2
          · subst h1
            intro x hx
            exact hg1.2 x (by simp [hx])
          · exact fun x hx => (hgood _ (List.mem_cons_of_mem _ h2)).2 x hx
        · intro seg hseg
          exact (hgood _ (List.mem_cons_of_mem _ hseg)).1
  · rintro ⟨hw, segs, hne, hword, htail, hj⟩
    match segs, hne with
    | s1 :: rest, _ =>
      refine ⟨(c :: s1) :: rest, by simp, ?_, ?_⟩
      · intro seg hseg
        rcases List.mem_cons.mp hseg with h1 | h2
        · subst h1
          refine ⟨by simp, ?_⟩
          intro x hx
          rcases List.mem_cons.mp hx with h3 | h4
          · subst h3; exact hw
          · exact hword s1 (by simp) x h4
        · exact ⟨htail _ h2, fun x hx => hword _ (List.mem_cons_of_mem _ h2) x hx⟩
      · rw [joinDots_word_cons, ← hj]

theorem segFormatLoose_cons (c : Char) (cs : List Char) :
    SegFormatLoose (c :: cs) ↔
      ((isWordChar c = true ∧ SegFormatLoose cs) ∨ (c = '.' ∧ SegFormatStrict cs)) := by
  constructor
  · rintro ⟨segs, hne, hword, htail, hj⟩
    match segs, hne with
    | s1 :: rest, _ =>
      cases s1 with
      | nil =>
        cases rest with
        | nil => simp [joinDots] at hj
        | cons r t =>
          rw [joinDots_nil_cons _ (by simp)] at hj
          injection hj with hc hcs
          refine Or.inr ⟨hc, r :: t, by simp, ?_, hcs⟩
          intro seg hseg
          exact ⟨htail _ hseg, fun x hx => hword _ (List.mem_cons_of_mem _ hseg) x hx⟩
      | cons c1 s1' =>
        rw [joinDots_word_cons] at hj
        injection hj with hc hcs
        subst hc
        refine Or.inl ⟨hword (c :: s1') (by simp) c (by simp), s1' :: rest, by simp, ?_, htail, hcs⟩
        intro seg hseg
        rcases List.mem_cons.mp hseg with h1 | h2
        · subst h1
          intro x hx
          refine hword (c :: seg) (by simp) x ?_
          simp [hx]
        · exact fun x hx => hword _ (List.mem_cons_of_mem _ h2) x hx
  · rintro (⟨hw, segs, hne, hword, htail, hj⟩ | ⟨hd, segs, hne, hgood, hj⟩)
    · match segs, hne with
      | s1 :: rest, _ =>
        refine ⟨(c :: s1) :: rest, by simp, ?_, htail, ?_⟩
        · intro seg hseg
          rcases List.mem_cons.mp hseg with h1 | h2
          · subst h1
            intro x hx
            rcases List.mem_cons.mp hx with h3 | h4
            · subst h3; exact hw
            · exact hword s1 (by simp) x h4
          · exact fun x hx => hword _ (List.mem_cons_of_mem _ h2) x hx
        · rw [joinDots_word_cons, ← hj]
    · subst hd
      refine ⟨[] :: segs, by simp, ?_, ?_, ?_⟩
      · intro seg hseg
        rcases List.mem_cons.mp hseg with h1 | h2
        · subst h1; intro x hx; exact absurd hx (List.not_mem_nil x)
        · exact fun x hx => (hgood _ h2).2 x hx
      · intro seg hseg
        exact (hgood _ hseg).1
      · rw [joinDots_nil_cons _ hne, ← hj]

theorem regexScan_iff (cs : List Char) :
    (regexScan cs false = true ↔ SegFormatStrict cs) ∧
    (regexScan cs true = true ↔ SegFormatLoose cs) := by
  induction cs with
  | nil =>
    refine ⟨?_, ?_⟩
    · simp [regexScan, segFormatStrict_nil]
    · simp [regexScan, segFormatLoose_nil]
  | cons c cs ih =>
    by_cases hw : isWordChar c = true
    · have hne := isWordChar_ne_dot hw
      constructor
      · rw [segFormatStrict_cons]
        simp [regexScan, hw, ih.2]
      · rw [segFormatLoose_cons]
        simp [regexScan, hw, ih.2, hne]
    · have hwf : isWordChar c = false := by simpa using hw
      by_cases hd : c = '.'
      · subst hd
        constructor
        · rw [segFormatStrict_cons]
          simp [regexScan, hwf]
        · rw [segFormatLoose_cons]
          simp [regexScan, hwf, ih.1]
      · constructor
        · rw [segFormatStrict_cons]
          simp [regexScan, hwf, hd, hw]
        · rw [segFormatLoose_cons]
          simp [regexScan, hwf, hd, hw]

/-- Accepted names never contain `".."` (every dot is followed by a word
character), so the redundant `includes("..")` check never fires on them. -/
theorem regexScan_no_dotdot (cs : List Char) :
    (regexScan cs false = true → listIsInfix ['.', '.'] cs = false) ∧
    (regexScan cs true = true → listIsInfix ['.', '.'] cs = false) := by
  induction cs with
  | nil => simp [listIsInfix]
  | cons c cs ih =>
    by_cases hw : isWordChar c = true
    · have hne := isWordChar_ne_dot hw
      have hstep : ∀ b, regexScan (c :: cs) b = regexScan cs true := by
        intro b
        simp [regexScan, hw]
      constructor <;>
      · rw [hstep]
        intro h
        simp only [listIsInfix, Bool.or_eq_false_iff]
        constructor
        · simp [List.isPrefixOf, Ne.symm hne]
        · exact ih.2 h
    · have hwf : isWordChar c = false := by simpa using hw
      by_cases hd : c = '.'
      · subst hd
        constructor
        · intro h
          simp [regexScan, hwf] at h
        · intro h
          have hcs : regexScan cs false = true := by simpa [regexScan, hwf] using h
          simp only [listIsInfix, Bool.or_eq_false_iff]
          refine ⟨?_, ih.1 hcs⟩
          cases cs with
          | nil => simp [List.isPrefixOf]
          | cons c2 t =>
            have hc2 : c2 ≠ '.' := by
              intro he
              subst he
              simp [regexScan] at hcs
              exact absurd hcs.1 (by decide)
            simp [List.isPrefixOf, Ne.symm hc2]
      · constructor <;>
        · intro h
          simp [regexScan, hwf, hd] at h

/-- The valid flag of `validateToolName` decides exactly the segment format. -/
theorem validateToolName_valid_iff (s id : String) :
    (validateToolName s id).valid = true ↔ SegFormat s := by
  unfold validateToolName
  split
  · rename_i hcond
    simp only [Bool.or_eq_true, Bool.not_eq_eq_eq_not, Bool.not_true] at hcond
    constructor
    · intro h
      exact absurd h (by simp)
    · intro hseg
      have haccept : toolNameRegexAccepts s = true := (regexScan_iff s.data).1.mpr hseg
      rcases hcond with h1 | h2
      · rw [haccept] at h1
        cases h1
      · have hnd := (regexScan_no_dotdot s.data).1 haccept
        unfold strIncludes at h2
        rw [show (".." : String).data = ['.', '.'] from rfl] at h2
        rw [hnd] at h2
        cases h2
  · rename_i hcond
    simp only [Bool.or_eq_true, Bool.not_eq_eq_eq_not, Bool.not_true, not_or] at hcond
    have haccept : toolNameRegexAccepts s = true := by
      rcases hcond with ⟨h1, _⟩
      revert h1
      cases h : toolNameRegexAccepts s <;> simp
    simp only [true_iff]
    exact (regexScan_iff s.data).1.mp haccept

/-- C9: `validateToolName` accepts exactly the names made of `[A-Za-z0-9_-]+`
segments joined by single dots; the listed examples behave as the spec says;
and on rejection the result carries a synthetic tool-role message with the
same `toolCallId` instead of throwing. -/
theorem c9_tool_name_validation :
    (∀ s id, (validateToolName s id).valid = true ↔ SegFormat s) ∧
    ((validateToolName "list_files" "i").valid = true ∧
      (validateToolName "my-tool" "i").valid = true ∧
      (validateToolName "web.fetch" "i").valid = true ∧
      (validateToolName "tool123" "i").valid = true ∧
      (validateToolName "list_files()" "i").valid = false ∧
      (validateToolName "bad..tool" "i").valid = false ∧
      (validateToolName "../x" "i").valid = false ∧
      (validateToolName "tool name" "i").valid = false ∧
      (validateToolName "" "i").valid = false) ∧
    (∀ s id, (validateToolName s id).valid = false →
      ∃ m, (validateToolName s id).errorMessage = some m ∧
        m.role = "tool" ∧ m.toolCallId = some id) := by
  refine ⟨validateToolName_valid_iff, by decide, ?_⟩
  intro s id hv
  unfold validateToolName at hv ⊢
  split at hv
  · split
    · exact ⟨_, rfl, rfl, rfl⟩
    · rename_i h1 h2
      exact absurd h1 h2
  · cases hv

/-- Witness for C9 at concrete inputs. -/
theorem c9_tool_name_validation_witness :
    SegFormat "web.fetch" ∧
    ∃ m, (validateToolName "list_files()" "call-9").errorMessage = some m ∧
      m.role = "tool" ∧ m.toolCallId = some "call-9" :=
  ⟨(c9_tool_name_validation.1 "web.fetch" "i").mp (by decide),
    c9_tool_name_validation.2.2 "list_files()" "call-9" (by decide)⟩

/-! ### C4: abort healing only reaches the last message -/

/-- C4 counterexample: in `c4Transcript` the assistant message still has the
outstanding tool call `id2`, but because its first call was already answered
the assistant message is not the last entry, so `handleAbortError` appends
only the interruption notice — no "operation aborted" result is injected for
`id2` anywhere in the output. -/
theorem c4_abort_heal_counterexample :
    orphanedIn "id2" c4Transcript = true ∧
    handleAbortError c4Transcript = c4Transcript ++ [interruptedMessage] ∧
    (handleAbortError c4Transcript).filter (fun m => answersId "id2" m) = [] :=
  ⟨rfl, rfl, rfl⟩

/-- C4 (amended): `handleAbortError` heals only when the assistant message
with tool calls is the *last* transcript entry — in that case it appends one
"Operation aborted by user" result per tool call of that message plus the
interruption notice; in every other case (in particular when some of the tool
calls have already been answered, so a tool message follows) it appends only
the interruption notice and outstanding calls stay unanswered. -/
theorem c4_abort_heals_only_last (msgs : List Message) (last : Message)
    (hlast : msgs.getLast? = some last) :
    (last.role = "assistant" → hasToolCalls last = true →
      handleAbortError msgs =
        msgs ++ (last.toolCalls.getD []).map abortedToolMessage ++ [interruptedMessage]) ∧
    (¬(last.role = "assistant" ∧ hasToolCalls last = true) →
      handleAbortError msgs = msgs ++ [interruptedMessage]) := by
  constructor
  · intro h1 h2
    simp [handleAbortError, hlast, h1, h2]
  · intro hneg
    have hguard : (last.role == "assistant" && hasToolCalls last) = false := by
      by_cases h1 : last.role = "assistant"
      · by_cases h2 : hasToolCalls last = true
        · exact absurd ⟨h1, h2⟩ hneg
        · simp [h2, Bool.eq_false_iff.mpr h2]
      · simp [h1]
    simp [handleAbortError, hlast, hguard]

/-- Witness for C4 at concrete inputs: healing does happen when the assistant
message is last, and only the notice is appended in the counterexample shape. -/
theorem c4_abort_heals_only_last_witness :
    handleAbortError lastAssistantTranscript =
      lastAssistantTranscript ++ [mkToolCall "idA" "tA"].map abortedToolMessage ++
        [interruptedMessage] ∧
    handleAbortError c4Transcript = c4Transcript ++ [interruptedMessage] :=
  ⟨(c4_abort_heals_only_last lastAssistantTranscript _ rfl).1 rfl (by decide),
    (c4_abort_heals_only_last c4Transcript _ rfl).2 (by
      rintro ⟨h, -⟩
      exact absurd h (by decide))⟩

/-! ### C5: the composed file validator -/

theorem splitSlash_ne_nil (cs : JsPath) : splitSlash cs ≠ [] := by
  cases cs with
  | nil => simp [splitSlash]
  | cons c t =>
    unfold splitSlash
    cases h : splitSlash t with
    | nil => simp
    | cons s rest =>
      by_cases hc : (c == '/') = true <;> simp [hc]

theorem splitSlash_cons (c : Char) (xs : JsPath) :
    splitSlash (c :: xs) =
      (match splitSlash xs with
        | s :: rest => if c == '/' then [] :: s :: rest else (c :: s) :: rest
        | [] => [[c]]) := rfl

theorem splitSlash_cons_slash (xs : JsPath) : splitSlash ('/' :: xs) = [] :: splitSlash xs := by
  rw [splitSlash_cons]
  cases h : splitSlash xs with
  | nil => exact absurd h (splitSlash_ne_nil xs)
  | cons s rest => simp

theorem splitSlash_seg_append (seg : JsPath) (ys : JsPath) (h : '/' ∉ seg) :
    splitSlash (seg ++ '/' :: ys) = seg :: splitSlash ys := by
  induction seg with
  | nil => simpa using splitSlash_cons_slash ys
  | cons c t ih =>
    have hc : c ≠ '/' := fun he => h (by simp [he])
    have ht : '/' ∉ t := fun hm => h (by simp [hm])
    rw [List.cons_append, splitSlash_cons, ih ht]
    simp [hc]

theorem splitSlash_no_slash (s : JsPath) (h : '/' ∉ s) : splitSlash s = [s] := by
  induction s with
  | nil => rfl
  | cons c t ih =>
    have hc : c ≠ '/' := fun he => h (by simp [he])
    have ht : '/' ∉ t := fun hm => h (by simp [hm])
    rw [splitSlash_cons, ih ht]
    simp [hc]

theorem joinSegs_append (a b : List JsPath) (ha : a ≠ []) (hb : b ≠ []) :
    joinSegs (a ++ b) = joinSegs a ++ '/' :: joinSegs b := by
  induction a with
  | nil => exact absurd rfl ha
  | cons s t ih =>
    cases t with
    | nil =>
      cases b with
      | nil => exact absurd rfl hb
      | cons b1 bt => simp [joinSegs]
    | cons s2 t2 =>
      have := ih (by simp)
      cases hb2 : (s2 :: t2) ++ b with
      | nil => simp at hb2
      | cons x xt =>
        simp only [List.cons_append, joinSegs] at *
        rw [← hb2] at *
        simp [joinSegs, this, hb2]

theorem splitSlash_joinSegs_append (l : List JsPath) (ip : JsPath)
    (hs : ∀ seg ∈ l, '/' ∉ seg) (hne : l ≠ []) :
    splitSlash (joinSegs l ++ '/' :: ip) = l ++ splitSlash ip := by
  induction l with
  | nil => exact absurd rfl hne
  | cons s t ih =>
    cases t with
    | nil => simpa using splitSlash_seg_append s ip (hs s (by simp))
    | cons s2 t2 =>
      have hj : joinSegs (s :: s2 :: t2) = s ++ '/' :: joinSegs (s2 :: t2) := rfl
      rw [hj, List.append_assoc, List.cons_append]
      rw [splitSlash_seg_append s _ (hs s (by simp))]
      rw [ih (fun seg hseg => hs seg (List.mem_cons_of_mem _ hseg)) (by simp)]
      rfl

theorem splitSlash_joinSegs (l : List JsPath) (hs : ∀ seg ∈ l, '/' ∉ seg) (hne : l ≠ []) :
    splitSlash (joinSegs l) = l := by
  induction l with
  | nil => exact absurd rfl hne
  | cons s t ih =>
    cases t with
    | nil => simpa [joinSegs] using splitSlash_no_slash s (hs s (by simp))
    | cons s2 t2 =>
      have hj : joinSegs (s :: s2 :: t2) = s ++ '/' :: joinSegs (s2 :: t2) := rfl
      rw [hj, splitSlash_seg_append s _ (hs s (by simp))]
      rw [ih (fun seg hseg => hs seg (List.mem_cons_of_mem _ hseg)) (by simp)]

theorem normStep_clean (acc : List JsPath) (seg : JsPath) (h : CleanSeg seg) :
    normStep acc seg = acc ++ [seg] := by
  obtain ⟨h1, h2, h3, _⟩ := h
  simp [normStep, h1, h2, h3]

theorem normFold_clean (l : List JsPath) (acc : List JsPath)
    (h : ∀ seg ∈ l, CleanSeg seg) :
    List.foldl normStep acc l = acc ++ l := by
  induction l generalizing acc with
  | nil => simp
  | cons s t ih =>
    rw [List.foldl_cons, normStep_clean acc s (h s (by simp)),
      ih _ (fun seg hseg => h seg (List.mem_cons_of_mem _ hseg))]
    simp

theorem normSegs_resolve_clean (l : List JsPath) (hc : ∀ seg ∈ l, CleanSeg seg)
    (hne : l ≠ []) : normSegs (splitSlash (joinAbs l)) = l := by
  unfold joinAbs
  rw [splitSlash_cons_slash, splitSlash_joinSegs l (fun seg hseg => (hc seg hseg).2.2.2) hne]
  unfold normSegs
  rw [List.foldl_cons]
  rw [show normStep [] [] = [] from rfl]
  simpa using normFold_clean l [] hc

theorem dropCommon_self_append (a b : List JsPath) : dropCommon a (a ++ b) = ([], b) := by
  induction a with
  | nil =>
    cases b with
    | nil => rfl
    | cons x t => rfl
  | cons s t ih => simp [dropCommon, ih]

theorem isPrefixOf_append_cancel (a b c : List Char) :
    (a ++ b).isPrefixOf (a ++ c) = b.isPrefixOf c := by
  induction a with
  | nil => rfl
  | cons x t ih => simp [List.isPrefixOf, ih]

theorem isPrefixOf_through_slash (seg : List Char) (hs : '/' ∉ seg) :
    ∀ w r : List Char, seg.isPrefixOf (w ++ '/' :: r) = true → seg.isPrefixOf w = true := by
  induction seg with
  | nil =>
    intro w r _
    simp [List.isPrefixOf]
  | cons c t ih =>
    intro w r h
    have hc : c ≠ '/' := fun he => hs (by simp [he])
    have ht : '/' ∉ t := fun hm => hs (by simp [hm])
    cases w with
    | nil =>
      simp only [List.nil_append, List.isPrefixOf, Bool.and_eq_true, beq_iff_eq] at h
      exact absurd h.1 hc
    | cons d w2 =>
      simp only [List.cons_append, List.isPrefixOf, Bool.and_eq_true] at h ⊢
      exact ⟨h.1, ih ht w2 r h.2⟩

/-- The resolution of a relative input under a clean absolute root. -/
theorem pathResolve_clean (l : List JsPath) (ip : JsPath) (hc : ∀ seg ∈ l, CleanSeg seg)
    (hne : l ≠ []) (hip : ip.head? ≠ some '/') :
    pathResolve (joinAbs l) ip = joinAbs (List.foldl normStep l (splitSlash ip)) := by
  unfold pathResolve
  rw [if_neg (by simpa using hip)]
  have h1 : joinAbs l ++ '/' :: ip = '/' :: (joinSegs l ++ '/' :: ip) := rfl
  rw [h1, splitSlash_cons_slash,
    splitSlash_joinSegs_append l ip (fun seg hseg => (hc seg hseg).2.2.2) hne]
  unfold normSegs
  rw [List.foldl_cons, show normStep [] [] = [] from rfl, List.foldl_append]
  rw [normFold_clean l [] hc]
  simp

/-- C5 counterexample: under root `/etc`, resolving `../etc/passwd` lands back
on `/etc/passwd`, which string-starts with the root, so the composed validator
accepts it with `valid = true` — not the claimed containment failure. -/
theorem c5_etc_root_counterexample :
    (validateFilePath "/etc".data
        (fun p => if p == "/etc/passwd".data then some FsKind.file else none)
        (fun _ => false) "../etc/passwd".data "edit" false) =
      { valid := true, absolutePath := some "/etc/passwd".data,
        stats := some FsKind.file } := by
  decide

/-- C5 (amended): under a root whose last segment is not a prefix of `etc`
(ruling out roots such as `/etc`, `/x/et`, `/a/e`, where `../etc/passwd`
resolves back inside the string-prefix region): (1) resolving `sub/f.txt` when
the file exists and is not ignored yields `valid = true` with absolute path
`C/sub/f.txt`; (2) resolving `../etc/passwd` yields `valid = false` with the
containment error, regardless of the filesystem; (3) any input whose resolved
path lies under the reserved `.eugent` directory is rejected regardless of the
filesystem — the reserved-directory check runs before the existence check. -/
theorem joinAbs_append (a b : List JsPath) (ha : a ≠ []) (hb : b ≠ []) :
    joinAbs (a ++ b) = joinAbs a ++ '/' :: joinSegs b := by
  unfold joinAbs
  rw [joinSegs_append a b ha hb]
  simp

theorem pathRelative_under (l extra : List JsPath) (hcl : ∀ seg ∈ l, CleanSeg seg)
    (hce : ∀ seg ∈ l ++ extra, CleanSeg seg) (hne : l ≠ []) :
    pathRelative (joinAbs l) (joinAbs (l ++ extra)) = joinSegs extra := by
  unfold pathRelative
  rw [normSegs_resolve_clean l hcl hne, normSegs_resolve_clean _ hce (by simp [hne])]
  show (match dropCommon l (l ++ extra) with
    | (f2, t2) => joinSegs (List.replicate f2.length ['.', '.'] ++ t2)) = joinSegs extra
  rw [dropCommon_self_append]
  simp

theorem c5_composed_file_validator (ds : List JsPath) (lastSeg : JsPath)
    (hclean : ∀ seg ∈ ds ++ [lastSeg], CleanSeg seg)
    (hl : lastSeg.isPrefixOf "etc".data = false) :
    (∀ fs im, fs (joinAbs (ds ++ [lastSeg]) ++ "/sub/f.txt".data) = some FsKind.file →
      im "sub/f.txt".data = false →
      validateFilePath (joinAbs (ds ++ [lastSeg])) fs im "sub/f.txt".data "read" false =
        { valid := true,
          absolutePath := some (joinAbs (ds ++ [lastSeg]) ++ "/sub/f.txt".data),
          stats := some FsKind.file }) ∧
    (∀ fs im g,
      validateFilePath (joinAbs (ds ++ [lastSeg])) fs im "../etc/passwd".data "read" g =
        { valid := false,
          error := some "Access denied: Cannot read outside the current directory" }) ∧
    (∀ fs im ip g,
      (jsStartsWith (pathRelative (joinAbs (ds ++ [lastSeg]))
          (pathResolve (joinAbs (ds ++ [lastSeg])) ip)) ".eugent/".data = true ∨
        pathRelative (joinAbs (ds ++ [lastSeg]))
          (pathResolve (joinAbs (ds ++ [lastSeg])) ip) = ".eugent".data) →
      (validateFilePath (joinAbs (ds ++ [lastSeg])) fs im ip "read" g).valid = false) := by
  have hlast : CleanSeg lastSeg := hclean lastSeg (by simp)
  have hne : ds ++ [lastSeg] ≠ [] := by simp
  have hcx : ∀ seg ∈ (ds ++ [lastSeg]) ++ ["sub".data, "f.txt".data], CleanSeg seg := by
    intro seg hseg
    rcases List.mem_append.mp hseg with h1 | h2
    · exact hclean seg h1
    · rcases List.mem_cons.mp h2 with h3 | h4
      · subst h3
        exact ⟨by decide, by decide, by decide, by decide⟩
      · rw [List.mem_singleton] at h4
        subst h4
        exact ⟨by decide, by decide, by decide, by decide⟩
  have hres1 : pathResolve (joinAbs (ds ++ [lastSeg])) "sub/f.txt".data =
      joinAbs ((ds ++ [lastSeg]) ++ ["sub".data, "f.txt".data]) := by
    rw [pathResolve_clean _ _ hclean hne (by decide)]
    rw [show splitSlash "sub/f.txt".data = ["sub".data, "f.txt".data] from rfl]
    rw [show List.foldl normStep (ds ++ [lastSeg]) ["sub".data, "f.txt".data] =
      ((ds ++ [lastSeg]) ++ ["sub".data, "f.txt".data]) from
      normFold_clean _ _ (fun seg hseg =>
        hcx seg (List.mem_append.mpr (Or.inr hseg)))]
  have hja : joinAbs ((ds ++ [lastSeg]) ++ ["sub".data, "f.txt".data]) =
      joinAbs (ds ++ [lastSeg]) ++ "/sub/f.txt".data := by
    rw [joinAbs_append _ _ hne (by simp)]
    rfl
  refine ⟨?_, ?_, ?_⟩
  · intro fs im hfs him
    have hsw : jsStartsWith (joinAbs (ds ++ [lastSeg]) ++ "/sub/f.txt".data)
        (joinAbs (ds ++ [lastSeg])) = true := isPrefixOf_self_append _ _
    have hrel : pathRelative (joinAbs (ds ++ [lastSeg]))
        (joinAbs (ds ++ [lastSeg]) ++ "/sub/f.txt".data) = "sub/f.txt".data := by
      rw [← hja, pathRelative_under _ _ hclean hcx hne]
      rfl
    have he1 : jsStartsWith "sub/f.txt".data ".eugent/".data = false := by decide
    have he2 : ("sub/f.txt".data == ".eugent".data) = false := by decide
    simp at hres1 hja hsw hrel he1 he2 hfs him
    simp only [validateFilePath, validatePath, blockEugentDirectory,
      validateResourceType, checkGitignoreAccess]
    simp [hres1, hja, hsw, hrel, he1, he2, hfs, him]
  · intro fs im g
    have hclean2 : ∀ seg ∈ ds ++ ["etc".data, "passwd".data], CleanSeg seg := by
      intro seg hseg
      rcases List.mem_append.mp hseg with h1 | h2
      · exact hclean seg (List.mem_append.mpr (Or.inl h1))
      · rcases List.mem_cons.mp h2 with h3 | h4
        · subst h3
          exact ⟨by decide, by decide, by decide, by decide⟩
        · rw [List.mem_singleton] at h4
          subst h4
          exact ⟨by decide, by decide, by decide, by decide⟩
    have hres2 : pathResolve (joinAbs (ds ++ [lastSeg])) "../etc/passwd".data =
        joinAbs (ds ++ ["etc".data, "passwd".data]) := by
      rw [pathResolve_clean _ _ hclean hne (by decide)]
      rw [show splitSlash "../etc/passwd".data =
        [['.', '.'], "etc".data, "passwd".data] from rfl]
      rw [List.foldl_cons]
      rw [show normStep (ds ++ [lastSeg]) ['.', '.'] = ds from by
        simp [normStep]]
      rw [normFold_clean _ _ (fun seg hseg => by
        rcases List.mem_cons.mp hseg with h3 | h4
        · subst h3
          exact ⟨by decide, by decide, by decide, by decide⟩
        · rw [List.mem_singleton] at h4
          subst h4
          exact ⟨by decide, by decide, by decide, by decide⟩)]
    have hsw2 : jsStartsWith (joinAbs (ds ++ ["etc".data, "passwd".data]))
        (joinAbs (ds ++ [lastSeg])) = false := by
      unfold jsStartsWith joinAbs
      cases ds with
      | nil =>
        simp only [List.nil_append]
        rw [show joinSegs [lastSeg] = lastSeg from rfl,
          show joinSegs ["etc".data, "passwd".data] =
            "etc".data ++ '/' :: "passwd".data from rfl]
        simp only [List.isPrefixOf, beq_self_eq_true, Bool.true_and]
        cases hp : lastSeg.isPrefixOf ("etc".data ++ '/' :: "passwd".data) with
        | false => rfl
        | true =>
          have := isPrefixOf_through_slash lastSeg hlast.2.2.2 "etc".data "passwd".data hp
          rw [this] at hl
          cases hl
      | cons d dt =>
        rw [joinSegs_append (d :: dt) [lastSeg] (by simp) (by simp),
          joinSegs_append (d :: dt) ["etc".data, "passwd".data] (by simp) (by simp)]
        rw [show joinSegs [lastSeg] = lastSeg from rfl,
          show joinSegs ["etc".data, "passwd".data] =
            "etc".data ++ '/' :: "passwd".data from rfl]
        simp only [List.isPrefixOf, beq_self_eq_true, Bool.true_and]
        rw [List.append_cons (joinSegs (d :: dt)) '/' lastSeg,
          List.append_cons (joinSegs (d :: dt)) '/' ("etc".data ++ '/' :: "passwd".data)]
        rw [isPrefixOf_append_cancel]
        cases hp : lastSeg.isPrefixOf ("etc".data ++ '/' :: "passwd".data) with
        | false => rfl
        | true =>
          have := isPrefixOf_through_slash lastSeg hlast.2.2.2 "etc".data "passwd".data hp
          rw [this] at hl
          cases hl
    simp only [validateFilePath, validatePath, hres2, hsw2, Bool.not_false, if_true]
    rfl
  · intro fs im ip g hblock
    have hb : (jsStartsWith (pathRelative (joinAbs (ds ++ [lastSeg]))
        (pathResolve (joinAbs (ds ++ [lastSeg])) ip)) ".eugent/".data ||
        (pathRelative (joinAbs (ds ++ [lastSeg]))
          (pathResolve (joinAbs (ds ++ [lastSeg])) ip) == ".eugent".data)) = true := by
      rcases hblock with h1 | h2
      · simp [h1]
      · simp [h2]
    by_cases hv : jsStartsWith (pathResolve (joinAbs (ds ++ [lastSeg])) ip)
        (joinAbs (ds ++ [lastSeg])) = true
    · simp only [validateFilePath, validatePath, blockEugentDirectory]
      simp [hv, hb]
    · have hv2 : jsStartsWith (pathResolve (joinAbs (ds ++ [lastSeg])) ip)
          (joinAbs (ds ++ [lastSeg])) = false := by
        revert hv
        cases jsStartsWith (pathResolve (joinAbs (ds ++ [lastSeg])) ip)
          (joinAbs (ds ++ [lastSeg])) <;> simp
      simp only [validateFilePath, validatePath]
      simp [hv2]

/-- Witness for C5 under the concrete root `/home/proj`. -/
theorem c5_composed_file_validator_witness :
    validateFilePath "/home/proj".data
        (fun p => if p == "/home/proj/sub/f.txt".data then some FsKind.file else none)
        (fun _ => false) "sub/f.txt".data "read" false =
      { valid := true, absolutePath := some "/home/proj/sub/f.txt".data,
        stats := some FsKind.file } ∧
    validateFilePath "/home/proj".data (fun _ => none) (fun _ => false)
        "../etc/passwd".data "read" false =
      { valid := false,
        error := some "Access denied: Cannot read outside the current directory" } ∧
    (validateFilePath "/home/proj".data (fun _ => none) (fun _ => false)
        ".eugent/config.json".data "read" false).valid = false := by
  have hclean : ∀ seg ∈ ["home".data] ++ ["proj".data], CleanSeg seg := by
    intro seg hseg
    simp only [List.mem_append, List.mem_singleton] at hseg
    rcases hseg with h | h <;> (subst h; exact ⟨by decide, by decide, by decide, by decide⟩)
  have h := c5_composed_file_validator ["home".data] "proj".data hclean (by decide)
  refine ⟨?_, h.2.1 _ _ false, h.2.2 _ _ ".eugent/config.json".data false (Or.inl (by decide))⟩
  exact h.1 (fun p => if p == "/home/proj/sub/f.txt".data then some FsKind.file else none)
    (fun _ => false) (by decide) rfl

/-! ### C2 and C7: the validity property of validateMessages

The pending set evolves, id by id, like the announce/answer replay
`presentIn`; an id is pending at the end iff its last event is an announce,
which happens iff some announce has no later answer. -/

theorem bool_eq_of_iff {a b : Bool} (h : a = true ↔ b = true) : a = b := by
  cases a <;> cases b <;> simp_all

theorem contains_setAdd (s : List String) (k id : String) :
    (setAdd s k).contains id = (s.contains id || (id == k)) := by
  apply bool_eq_of_iff
  simp only [Bool.or_eq_true, beq_iff_eq]
  unfold setAdd
  by_cases hk : s.contains k = true
  · rw [if_pos hk]
    constructor
    · exact Or.inl
    · rintro (h | h)
      · exact h
      · subst h
        exact hk
  · rw [if_neg hk]
    simp

theorem contains_setDelete (s : List String) (k id : String) :
    (setDelete s k).contains id = (s.contains id && !(id == k)) := by
  apply bool_eq_of_iff
  unfold setDelete
  simp [List.mem_filter, bne_iff_ne]

theorem toolCallScan_snd (i : Nat) (st : List String × List String) (tc : ToolCall) :
    (toolCallScan i st tc).2 = if strTruthy tc.id then setAdd st.2 (optStr tc.id) else st.2 := by
  obtain ⟨es, ps⟩ := st
  unfold toolCallScan
  by_cases h1 : strTruthy tc.id = true <;> by_cases h2 : strTruthy tc.function.name = true <;>
    simp [h1, h2]

theorem toolCallScan_pending (i : Nat) (tcs : List ToolCall) (st : List String × List String)
    (id : String) :
    ((tcs.foldl (toolCallScan i) st).2).contains id =
      (st.2.contains id || tcs.any (fun tc => strTruthy tc.id && (optStr tc.id == id))) := by
  induction tcs generalizing st with
  | nil => simp
  | cons tc rest ih =>
    rw [List.foldl_cons, List.any_cons, ih, toolCallScan_snd]
    by_cases h1 : strTruthy tc.id = true
    · rw [if_pos h1, contains_setAdd]
      apply bool_eq_of_iff
      simp only [Bool.or_eq_true, Bool.and_eq_true, beq_iff_eq, h1, true_and]
      constructor
      · rintro ((h | h) | h)
        · exact Or.inl h
        · exact Or.inr (Or.inl h.symm)
        · exact Or.inr (Or.inr h)
      · rintro (h | h | h)
        · exact Or.inl (Or.inl h)
        · exact Or.inl (Or.inr h.symm)
        · exact Or.inr h
    · rw [if_neg h1]
      simp [h1]

theorem hasToolCalls_false_any (m : Message) (p : ToolCall → Bool)
    (h : hasToolCalls m = false) : (m.toolCalls.getD []).any p = false := by
  unfold hasToolCalls at h
  cases htc : m.toolCalls with
  | none => rfl
  | some tcs =>
    rw [htc] at h
    simp only [decide_eq_false_iff_not, not_lt, Nat.le_zero, List.length_eq_zero] at h
    subst h
    rfl

/-- One validator step moves the pending set, id by id, exactly like the
announce/answer replay. -/
theorem vstep_pending_contains (st : VState) (msg : Message) (id : String) :
    (vstep st msg).pending.contains id =
      presentStep (vAnnounces id) (answersId id) (st.pending.contains id) msg := by
  by_cases h0 : msg.role = ""
  · have ha : answersId id msg = false := by simp [answersId, h0]
    have hn : vAnnounces id msg = false := by simp [vAnnounces, h0]
    simp [vstep, presentStep, h0, ha, hn]
  · by_cases hs : msg.role = "system"
    · have ha : answersId id msg = false := by simp [answersId, hs]
      have hn : vAnnounces id msg = false := by simp [vAnnounces, hs]
      simp [vstep, presentStep, h0, hs, ha, hn]
    · by_cases hu : msg.role = "user"
      · have ha : answersId id msg = false := by simp [answersId, hu]
        have hn : vAnnounces id msg = false := by simp [vAnnounces, hu]
        simp [vstep, presentStep, h0, hs, hu, ha, hn]
      · by_cases hA : msg.role = "assistant"
        · have ha : answersId id msg = false := by simp [answersId, hA]
          by_cases htc : hasToolCalls msg = true
          · have hpend : (vstep st msg).pending =
                ((msg.toolCalls.getD []).foldl (toolCallScan st.idx) (st.errors, st.pending)).2 := by
              simp [vstep, h0, hs, hu, hA, htc]
            rw [hpend, toolCallScan_pending]
            simp only [presentStep, ha, Bool.false_eq_true, if_false, vAnnounces, hA]
            cases hany : (msg.toolCalls.getD []).any
                (fun tc => strTruthy tc.id && (optStr tc.id == id)) <;>
              simp [hany]
          · have htc2 : hasToolCalls msg = false := by
              revert htc
              cases hasToolCalls msg <;> simp
            have hn : vAnnounces id msg = false := by
              simp [vAnnounces, hA, hasToolCalls_false_any _ _ htc2]
            simp [vstep, presentStep, h0, hs, hu, hA, htc2, ha, hn]
        · by_cases hT : msg.role = "tool"
          · have hn : vAnnounces id msg = false := by simp [vAnnounces, hT]
            by_cases htid : strTruthy msg.toolCallId = true
            · by_cases hmem : optStr msg.toolCallId ∈ st.pending
              · have hpend : (vstep st msg).pending =
                    setDelete st.pending (optStr msg.toolCallId) := by
                  simp [vstep, h0, hs, hu, hA, hT, htid, hmem]
                rw [hpend, contains_setDelete]
                by_cases hidt : id = optStr msg.toolCallId
                · subst hidt
                  have ha : answersId (optStr msg.toolCallId) msg = true := by
                    simp [answersId, hT, htid]
                  simp [presentStep, ha]
                · have hne : ¬ optStr msg.toolCallId = id := fun h => hidt h.symm
                  have ha : answersId id msg = false := by
                    simp only [answersId, hT]
                    simp [htid, hne]
                  simp [presentStep, ha, hn, hidt]
              · have hpend : (vstep st msg).pending = st.pending := by
                  simp [vstep, h0, hs, hu, hA, hT, htid, hmem]
                rw [hpend]
                by_cases hidt : id = optStr msg.toolCallId
                · subst hidt
                  have ha : answersId (optStr msg.toolCallId) msg = true := by
                    simp [answersId, hT, htid]
                  simp [presentStep, ha, hmem]
                · have hne : ¬ optStr msg.toolCallId = id := fun h => hidt h.symm
                  have ha : answersId id msg = false := by
                    simp only [answersId, hT]
                    simp [htid, hne]
                  simp [presentStep, ha, hn]
            · have ha : answersId id msg = false := by
                simp only [answersId, hT]
                simp [htid]
              have hpend : (vstep st msg).pending = st.pending := by
                simp [vstep, h0, hs, hu, hA, hT, htid]
              rw [hpend]
              simp [presentStep, ha, hn]
          · have ha : answersId id msg = false := by simp [answersId, hT]
            have hn : vAnnounces id msg = false := by simp [vAnnounces, hA]
            simp [vstep, presentStep, h0, hs, hu, hA, hT, ha, hn]

theorem snoc_decomp {α : Type} (msgs pre post : List α) (m m' : α)
    (h : msgs ++ [m] = pre ++ m' :: post) :
    (pre = msgs ∧ m' = m ∧ post = []) ∨
      ∃ post', post = post' ++ [m] ∧ msgs = pre ++ m' :: post' := by
  rcases List.eq_nil_or_concat post with rfl | ⟨post', x, hpx⟩
  · have h2 := List.append_inj' h (by rfl)
    exact Or.inl ⟨h2.1.symm, by simpa using h2.2.symm, rfl⟩
  · subst hpx
    have h3 : msgs ++ [m] = (pre ++ m' :: post') ++ [x] := by
      simpa [List.concat_eq_append] using h
    have h2 := List.append_inj' h3 (by rfl)
    have hxm : x = m := by simpa using h2.2.symm
    subst hxm
    exact Or.inr ⟨post', by simp [List.concat_eq_append], h2.1⟩

theorem presentIn_snoc (ann ans : Message → Bool) (msgs : List Message) (m : Message) :
    presentIn ann ans (msgs ++ [m]) = presentStep ann ans (presentIn ann ans msgs) m := by
  unfold presentIn
  rw [List.foldl_append]
  rfl

/-- The replay ends `false` exactly when every announce has a later answer
(for disjoint announce/answer events). -/
theorem presentIn_false_iff (ann ans : Message → Bool)
    (hdisj : ∀ m, ans m = true → ann m = false) (msgs : List Message) :
    presentIn ann ans msgs = false ↔
      ∀ pre m post, msgs = pre ++ m :: post → ann m = true →
        ∃ m2 ∈ post, ans m2 = true := by
  induction msgs using List.reverseRecOn with
  | nil =>
    constructor
    · intro _ pre m post hdec
      exact absurd hdec (by simp)
    · intro _
      rfl
  | append_singleton msgs m ih =>
    rw [presentIn_snoc]
    by_cases hans : ans m = true
    · have hval : presentStep ann ans (presentIn ann ans msgs) m = false := by
        simp [presentStep, hans]
      rw [hval]
      constructor
      · intro _ pre m' post hdec hann
        rcases snoc_decomp msgs pre post m m' hdec with ⟨_, rfl, _⟩ | ⟨post', rfl, hmsgs⟩
        · exact absurd hann (by simp [hdisj _ hans])
        · exact ⟨_, by simp, hans⟩
      · intro _
        rfl
    · have hans' : ans m = false := by
        revert hans
        cases ans m <;> simp
      by_cases hann : ann m = true
      · have hval : presentStep ann ans (presentIn ann ans msgs) m = true := by
          simp [presentStep, hans', hann]
        rw [hval]
        constructor
        · intro h
          exact absurd h (by simp)
        · intro h
          rcases h msgs m [] rfl hann with ⟨m2, hm2, _⟩
          exact absurd hm2 (by simp)
      · have hann' : ann m = false := by
          revert hann
          cases ann m <;> simp
        have hval : presentStep ann ans (presentIn ann ans msgs) m =
            presentIn ann ans msgs := by
          simp [presentStep, hans', hann']
        rw [hval, ih]
        constructor
        · intro h pre m' post hdec hannm'
          rcases snoc_decomp msgs pre post m m' hdec with ⟨_, rfl, _⟩ | ⟨post', rfl, hmsgs⟩
          · exact absurd hannm' (by simp [hann'])
          · rcases h pre m' post' hmsgs hannm' with ⟨m2, hm2, hm2a⟩
            exact ⟨m2, by simp [hm2], hm2a⟩
        · intro h pre m' post hdec hannm'
          rcases h pre m' (post ++ [m]) (by simp [hdec]) hannm' with ⟨m2, hm2, hm2a⟩
          rcases List.mem_append.mp hm2 with h2 | h2
          · exact ⟨m2, h2, hm2a⟩
          · have hm2m : m2 = m := by simpa using h2
            subst hm2m
            rw [hans'] at hm2a
            exact absurd hm2a (by simp)

theorem vfold_pending_contains (msgs : List Message) (st : VState) (id : String) :
    ((msgs.foldl vstep st).pending).contains id =
      msgs.foldl (presentStep (vAnnounces id) (answersId id)) (st.pending.contains id) := by
  induction msgs generalizing st with
  | nil => rfl
  | cons m rest ih =>
    rw [List.foldl_cons, List.foldl_cons, ih, vstep_pending_contains]

/-- The validator's final pending set is empty exactly when every announced
tool-call id is later answered. -/
theorem pending_empty_iff (msgs : List Message) :
    (msgs.foldl vstep vInit).pending = [] ↔ AllAnnouncedAnswered msgs := by
  have hdisj : ∀ id m, answersId id m = true → vAnnounces id m = false := by
    intro id m hm
    simp only [answersId, Bool.and_eq_true, beq_iff_eq] at hm
    have hrole : m.role = "tool" := hm.1.1
    simp [vAnnounces, hrole]
  have hkey : ∀ id, ((msgs.foldl vstep vInit).pending).contains id =
      presentIn (vAnnounces id) (answersId id) msgs := by
    intro id
    rw [vfold_pending_contains]
    rfl
  constructor
  · intro hp pre m post hdec id hann
    have h1 : presentIn (vAnnounces id) (answersId id) msgs = false := by
      rw [← hkey id, hp]
      rfl
    exact (presentIn_false_iff _ _ (hdisj id) msgs).mp h1 pre m post hdec hann
  · intro haaa
    have hfalse : ∀ id, ((msgs.foldl vstep vInit).pending).contains id = false := by
      intro id
      rw [hkey id]
      exact (presentIn_false_iff _ _ (hdisj id) msgs).mpr
        (fun pre m post hdec hann => haaa pre m post hdec id hann)
    cases hp : (msgs.foldl vstep vInit).pending with
    | nil => rfl
    | cons x xs =>
      have hx := hfalse x
      rw [hp] at hx
      simp at hx

theorem toolCallScan_errors (i : Nat) (tcs : List ToolCall) (es ps : List String)
    (h : tcs.all (fun tc => strTruthy tc.id && strTruthy tc.function.name) = true) :
    (tcs.foldl (toolCallScan i) (es, ps)).1 = es := by
  induction tcs generalizing es ps with
  | nil => rfl
  | cons tc rest ih =>
    simp only [List.all_cons, Bool.and_eq_true] at h
    have hstep : toolCallScan i (es, ps) tc = (es, setAdd ps (optStr tc.id)) := by
      simp [toolCallScan, h.1.1, h.1.2]
    rw [List.foldl_cons, hstep]
    exact ih _ _ h.2

theorem vstep_prev (st : VState) (m : Message) : (vstep st m).prev = some m := by
  unfold vstep
  repeat' split
  all_goals try rfl
  all_goals by_cases hc : optStr m.toolCallId ∈ st.pending <;> simp [hc]

/-- A message satisfying the structural checks contributes no error. -/
theorem vstep_errors_clean (st : VState) (m : Message)
    (h : wellformedMsg (st.prev.map (fun x => x.role)) m = true) :
    (vstep st m).errors = st.errors := by
  simp only [wellformedMsg, Bool.or_eq_true, Bool.and_eq_true, Bool.not_eq_true',
    beq_iff_eq] at h
  rcases h with ((⟨hrole, hcont⟩ | ⟨⟨⟨hrole, hcont⟩, htrim⟩, hprev⟩) | ⟨hrole, hall⟩) |
    ⟨⟨hrole, hname⟩, htid⟩
  · simp [vstep, hrole, hcont]
  · simp [vstep, hrole, hcont, htrim, hprev]
  · by_cases htc : hasToolCalls m = true
    · have he : (vstep st m).errors =
          ((m.toolCalls.getD []).foldl (toolCallScan st.idx) (st.errors, st.pending)).1 := by
        simp [vstep, hrole, htc]
      rw [he]
      exact toolCallScan_errors _ _ _ _ hall
    · have htc' : hasToolCalls m = false := by
        revert htc
        cases hasToolCalls m <;> simp
      simp [vstep, hrole, htc']
  · by_cases hmem : optStr m.toolCallId ∈ st.pending <;>
      simp [vstep, hrole, hname, htid, hmem]

theorem vfold_errors_clean (msgs : List Message) (st : VState)
    (h : wellformedFrom (st.prev.map (fun x => x.role)) msgs = true) :
    (msgs.foldl vstep st).errors = st.errors := by
  induction msgs generalizing st with
  | nil => rfl
  | cons m rest ih =>
    simp only [wellformedFrom, Bool.and_eq_true] at h
    rw [List.foldl_cons]
    have h2 : wellformedFrom ((vstep st m).prev.map (fun x => x.role)) rest = true := by
      rw [vstep_prev]
      exact h.2
    rw [ih _ h2, vstep_errors_clean st m h.1]

/-- C2 (corrected): for a structurally clean transcript, `validateMessages`
reports zero errors (is valid) iff every tool-call id announced by an
assistant message has a later tool message answering it; but the validator
aggregates all unanswered ids into a single error, so the error count is at
most one rather than the number of unmatched ids. -/
theorem c2_validity (msgs : List Message) (h : StructurallyClean msgs) :
    ((validateMessages msgs).valid = true ↔ AllAnnouncedAnswered msgs) ∧
    (validateMessages msgs).errors.length ≤ 1 := by
  by_cases hnil : msgs = []
  · subst hnil
    refine ⟨⟨fun _ pre m post hdec => absurd hdec (by simp), fun _ => rfl⟩, ?_⟩
    simp [validateMessages]
  · have hlen : (msgs.length == 0) = false := by
      cases msgs with
      | nil => exact absurd rfl hnil
      | cons a l => rfl
    have herr0 : (msgs.foldl vstep vInit).errors = [] := vfold_errors_clean msgs vInit h
    by_cases hpend : (msgs.foldl vstep vInit).pending = []
    · have haaa : AllAnnouncedAnswered msgs := (pending_empty_iff msgs).mp hpend
      have hvt : (validateMessages msgs).valid = true := by
        simp [validateMessages, hlen, hpend, herr0]
      have hel : (validateMessages msgs).errors.length = 0 := by
        simp [validateMessages, hlen, hpend, herr0]
      exact ⟨⟨fun _ => haaa, fun _ => hvt⟩, by omega⟩
    · have hlen2 : (msgs.foldl vstep vInit).pending.length > 0 := by
        cases hp : (msgs.foldl vstep vInit).pending with
        | nil => exact absurd hp hpend
        | cons x xs => simp
      have hvf : (validateMessages msgs).valid = false := by
        simp [validateMessages, hlen, herr0, hlen2]
      have hel : (validateMessages msgs).errors.length = 1 := by
        simp [validateMessages, hlen, herr0, hlen2]
      refine ⟨⟨fun hv => ?_, fun haaa => ?_⟩, by omega⟩
      · rw [hvf] at hv
        exact absurd hv (by simp)
      · exact absurd ((pending_empty_iff msgs).mpr haaa) hpend

/-- C2 counterexample: a transcript with two unanswered tool-call ids yields a
single aggregated error, so the error count differs from the number of
unmatched ids. -/
theorem c2_error_count_counterexample :
    (validateMessages c2Transcript).errors.length = 1 ∧
    (unansweredIds c2Transcript).length = 2 ∧
    ¬((validateMessages c2Transcript).errors.length =
      (unansweredIds c2Transcript).length) :=
  ⟨rfl, rfl, by decide⟩

/-- Witness: the amended C2 property applied to the concrete two-call
transcript. -/
theorem c2_validity_witness :
    StructurallyClean c2Transcript ∧
    (((validateMessages c2Transcript).valid = true ↔ AllAnnouncedAnswered c2Transcript) ∧
      (validateMessages c2Transcript).errors.length ≤ 1) :=
  ⟨((by decide) : wellformedFrom none c2Transcript = true),
   c2_validity c2Transcript ((by decide) : wellformedFrom none c2Transcript = true)⟩

/-- C7 (corrected): `validateMessages` does not reject duplicate tool-call ids
within one assistant message: the pending set deduplicates them, so a single
answering tool message clears the id and the transcript validates with no
errors and no warnings. -/
theorem c7_duplicate_ids_accepted (id nm : String) (hid : id ≠ "") (hnm : nm ≠ "") :
    (validateMessages (dupIdTranscript id nm)).valid = true ∧
    (validateMessages (dupIdTranscript id nm)).errors = [] ∧
    (validateMessages (dupIdTranscript id nm)).warnings = [] := by
  have h1 : strTruthy (some id) = true := by simp [strTruthy, hid]
  have h2 : strTruthy (some nm) = true := by simp [strTruthy, hnm]
  refine ⟨?_, ?_, ?_⟩ <;>
    simp [validateMessages, dupIdTranscript, mkToolCall, mkToolAnswer, vInit, vstep,
      hasToolCalls, toolCallScan, setAdd, setDelete, h1, h2, optStr]

/-- C7 counterexample: a transcript whose single assistant message announces
the id "a" twice is accepted by `validateMessages` with no errors. -/
theorem c7_duplicate_id_counterexample :
    (validateMessages (dupIdTranscript "a" "t")).valid = true ∧
    (validateMessages (dupIdTranscript "a" "t")).errors = [] :=
  ⟨rfl, rfl⟩

/-- Witness: the C7 duplicate-id behaviour at a concrete id and name. -/
theorem c7_duplicate_ids_accepted_witness :
    "dup" ≠ "" ∧ "tool" ≠ "" ∧
    ((validateMessages (dupIdTranscript "dup" "tool")).valid = true ∧
      (validateMessages (dupIdTranscript "dup" "tool")).errors = [] ∧
      (validateMessages (dupIdTranscript "dup" "tool")).warnings = []) :=
  ⟨by decide, by decide, c7_duplicate_ids_accepted "dup" "tool" (by decide) (by decide)⟩

/-! ### C3: the healer's splice pass in weave normal form -/

theorem insertAt_length (l : List Message) (pos : Nat) (xs : List Message) :
    (insertAt l pos xs).length = l.length + xs.length := by
  simp [insertAt]
  omega

theorem foldl_insertAt_append (f : Nat → List Message) (ks : List Nat) (A B : List Message)
    (h : ∀ j ∈ ks, j + 1 ≤ A.length) :
    ks.foldl (fun healed i => insertAt healed (i + 1) (f i)) (A ++ B) =
      ks.foldl (fun healed i => insertAt healed (i + 1) (f i)) A ++ B := by
  induction ks generalizing A with
  | nil => rfl
  | cons j rest ih =>
    have hj : j + 1 ≤ A.length := h j (by simp)
    have hstep : insertAt (A ++ B) (j + 1) (f j) = insertAt A (j + 1) (f j) ++ B := by
      simp [insertAt, List.take_append_eq_append_take, List.drop_append_eq_append_drop,
        Nat.sub_eq_zero_of_le hj]
    rw [List.foldl_cons, List.foldl_cons, hstep]
    apply ih
    intro j2 hj2
    rw [insertAt_length]
    have := h j2 (by simp [hj2])
    omega

theorem weave_plain (f : Nat → List Message) (P : Nat → Bool) (msgs : List Message) (k : Nat)
    (h : ∀ j, k ≤ j → P j = false) :
    weave f P msgs k = msgs := by
  induction msgs generalizing k with
  | nil => rfl
  | cons m rest ih =>
    have h1 : P k = false := h k (Nat.le_refl k)
    simp [weave, h1, ih (k + 1) (fun j hj => h j (Nat.le_of_succ_le hj))]

theorem weave_append (f : Nat → List Message) (P : Nat → Bool) (A B : List Message) (k : Nat) :
    weave f P (A ++ B) k = weave f P A k ++ weave f P B (k + A.length) := by
  induction A generalizing k with
  | nil => simp [weave]
  | cons m rest ih =>
    simp only [List.cons_append, weave, List.length_cons, List.append_eq]
    rw [ih (k + 1)]
    have hoff : k + 1 + rest.length = k + (rest.length + 1) := by omega
    rw [hoff]
    simp [List.append_assoc]

theorem weave_cong (f : Nat → List Message) (P Q : Nat → Bool) (msgs : List Message) (k : Nat)
    (h : ∀ j, k ≤ j → j < k + msgs.length → P j = Q j) :
    weave f P msgs k = weave f Q msgs k := by
  induction msgs generalizing k with
  | nil => rfl
  | cons m rest ih =>
    have h1 : P k = Q k := h k (Nat.le_refl k) (by simp)
    simp only [weave, h1]
    rw [ih (k + 1) (fun j hj1 hj2 => h j (Nat.le_of_succ_le hj1) (by simp at hj2 ⊢; omega))]

theorem foldl_insertAt_weave (f : Nat → List Message) (ks : List Nat) (msgs : List Message)
    (hdesc : List.Pairwise (fun a b => a > b) ks) (hbound : ∀ j ∈ ks, j < msgs.length) :
    ks.foldl (fun healed i => insertAt healed (i + 1) (f i)) msgs =
      weave f (fun k => ks.contains k) msgs 0 := by
  induction ks generalizing msgs with
  | nil =>
    rw [List.foldl_nil, weave_plain]
    intro j _
    rfl
  | cons i rest ih =>
    have hrest_lt : ∀ j ∈ rest, j < i := fun j hj => (List.pairwise_cons.mp hdesc).1 j hj
    have hi : i < msgs.length := hbound i (by simp)
    have hstep : insertAt msgs (i + 1) (f i) = (msgs.take (i + 1) ++ f i) ++ msgs.drop (i + 1) := by
      simp [insertAt, List.append_assoc]
    have htlen : (msgs.take (i + 1)).length = i + 1 := by
      rw [List.length_take]
      omega
    rw [List.foldl_cons, hstep]
    rw [foldl_insertAt_append f rest _ _
      (fun j hj => by rw [List.length_append, htlen]; have := hrest_lt j hj; omega)]
    rw [foldl_insertAt_append f rest _ _
      (fun j hj => by rw [htlen]; have := hrest_lt j hj; omega)]
    rw [ih (msgs.take (i + 1)) (List.pairwise_cons.mp hdesc).2
      (fun j hj => by rw [htlen]; have := hrest_lt j hj; omega)]
    have hTi : msgs.take (i + 1) = msgs.take i ++ [msgs[i]] := by
      rw [← List.take_concat_get msgs i hi, List.concat_eq_append]
    have hilen : (msgs.take i).length = i := by
      rw [List.length_take]
      omega
    have hmsgs : msgs = msgs.take i ++ msgs[i] :: msgs.drop (i + 1) := by
      conv_lhs => rw [← List.take_append_drop (i + 1) msgs, hTi]
      simp
    have hci : (rest.contains i) = false := by
      cases hc : rest.contains i with
      | false => rfl
      | true =>
        have : i ∈ rest := by
          simpa using hc
        exact absurd (hrest_lt i this) (by omega)
    have hfull_i : ((i :: rest).contains i) = true := by simp
    calc weave f (fun k => rest.contains k) (msgs.take (i + 1)) 0 ++ f i ++ msgs.drop (i + 1)
        = weave f (fun k => rest.contains k) (msgs.take i) 0 ++
            (msgs[i] :: (f i ++ msgs.drop (i + 1))) := by
          rw [hTi, weave_append]
          have hone : weave f (fun k => rest.contains k) [msgs[i]] (0 + (msgs.take i).length) =
              [msgs[i]] := by
            rw [hilen]
            simp only [Nat.zero_add, weave]
            rw [hci]
            simp
          rw [hone]
          simp
      _ = weave f (fun k => (i :: rest).contains k) msgs 0 := by
          conv_rhs => rw [hmsgs]
          rw [weave_append]
          have hcong : weave f (fun k => rest.contains k) (msgs.take i) 0 =
              weave f (fun k => (i :: rest).contains k) (msgs.take i) 0 := by
            apply weave_cong
            intro j hj1 hj2
            rw [hilen] at hj2
            simp only [List.contains_cons]
            have hne : (j == i) = false := by
              simp only [beq_eq_false_iff_ne, ne_eq]
              omega
            rw [hne]
            simp
          rw [hcong, hilen]
          have htail : weave f (fun k => (i :: rest).contains k)
              (msgs[i] :: msgs.drop (i + 1)) i =
              msgs[i] :: (f i ++ msgs.drop (i + 1)) := by
            simp only [weave, hfull_i, if_true]
            rw [weave_plain]
            intro j hj
            simp only [List.contains_cons]
            have h1 : (j == i) = false := by
              simp only [beq_eq_false_iff_ne, ne_eq]
              omega
            rw [h1]
            cases hc : rest.contains j with
            | false => rfl
            | true =>
              have hjr : j ∈ rest := by simpa using hc
              exact absurd (hrest_lt j hjr) (by omega)
          simp only [Nat.zero_add]
          rw [htail]

theorem presentFold_mono (ann ans : Message → Bool) (l : List Message) (b1 b2 : Bool)
    (h : b1 = true → b2 = true) :
    l.foldl (presentStep ann ans) b1 = true → l.foldl (presentStep ann ans) b2 = true := by
  induction l generalizing b1 b2 with
  | nil =>
    intro hb
    exact h hb
  | cons m rest ih =>
    intro hfold
    rw [List.foldl_cons] at hfold ⊢
    refine ih _ _ ?_ hfold
    intro hs
    simp only [presentStep] at hs ⊢
    by_cases ha : ans m = true
    · rw [if_pos ha] at hs
      exact absurd hs (by simp)
    · rw [if_neg ha] at hs ⊢
      by_cases hn : ann m = true
      · rw [if_pos hn]
      · rw [if_neg hn] at hs ⊢
        exact h hs

theorem presentFold_no_announce (ann ans : Message → Bool) (l : List Message)
    (h : ∀ m ∈ l, ann m = false) :
    l.foldl (presentStep ann ans) false = false := by
  induction l with
  | nil => rfl
  | cons m rest ih =>
    rw [List.foldl_cons]
    have hstep : presentStep ann ans false m = false := by
      simp [presentStep, h m (by simp)]
    rw [hstep]
    exact ih (fun m2 hm2 => h m2 (by simp [hm2]))

theorem presentFold_no_announce_le (ann ans : Message → Bool) (l : List Message) (b : Bool)
    (h : ∀ m ∈ l, ann m = false) :
    l.foldl (presentStep ann ans) b = true → b = true := by
  induction l generalizing b with
  | nil => exact id
  | cons m rest ih =>
    intro hf
    rw [List.foldl_cons] at hf
    have hstep : presentStep ann ans b m = if ans m then false else b := by
      simp [presentStep, h m (by simp)]
    rw [hstep] at hf
    have hs := ih _ (fun m2 hm2 => h m2 (by simp [hm2])) hf
    by_cases ha : ans m = true
    · rw [if_pos ha] at hs
      exact absurd hs (by simp)
    · rw [if_neg ha] at hs
      exact hs

theorem presentFold_answered (ann ans : Message → Bool) (L : List Message) (b : Bool)
    (s : Message) (hs : s ∈ L) (hans : ans s = true) (hno : ∀ x ∈ L, ann x = false) :
    L.foldl (presentStep ann ans) b = false := by
  rcases List.append_of_mem hs with ⟨u, v, rfl⟩
  rw [List.foldl_append, List.foldl_cons]
  have hstep : presentStep ann ans (u.foldl (presentStep ann ans) b) s = false := by
    simp [presentStep, hans]
  rw [hstep]
  exact presentFold_no_announce ann ans v (fun x hx => hno x (by simp [hx]))

theorem weave_mem (f : Nat → List Message) (P : Nat → Bool) (msgs : List Message) (k : Nat)
    (x : Message) (hx : x ∈ weave f P msgs k) :
    x ∈ msgs ∨ ∃ j, x ∈ f j := by
  induction msgs generalizing k with
  | nil => exact absurd hx (by simp [weave])
  | cons m rest ih =>
    simp only [weave, List.mem_cons, List.mem_append] at hx
    rcases hx with rfl | hx | hx
    · exact Or.inl (by simp)
    · by_cases hp : P k = true
      · rw [if_pos hp] at hx
        exact Or.inr ⟨k, hx⟩
      · rw [if_neg hp] at hx
        exact absurd hx (by simp)
    · rcases ih (k + 1) hx with h1 | h1
      · exact Or.inl (by simp [h1])
      · exact Or.inr h1

/-- Weaving in blocks that never announce cannot turn an absent id present. -/
theorem weave_fold_le (ann ans : Message → Bool) (f : Nat → List Message) (P : Nat → Bool)
    (hblocks : ∀ j, ∀ x ∈ f j, ann x = false) (msgs : List Message) :
    ∀ k b, msgs.foldl (presentStep ann ans) b = false →
      (weave f P msgs k).foldl (presentStep ann ans) b = false := by
  induction msgs with
  | nil =>
    intro k b h
    simpa [weave] using h
  | cons m rest ih =>
    intro k b h
    rw [List.foldl_cons] at h
    simp only [weave]
    rw [List.foldl_cons, List.foldl_append]
    apply ih (k + 1)
    have hle : (if P k then f k else []).foldl (presentStep ann ans) (presentStep ann ans b m) = true →
        presentStep ann ans b m = true := by
      intro ht
      refine presentFold_no_announce_le ann ans _ _ ?_ ht
      intro x hxm
      by_cases hp : P k = true
      · rw [if_pos hp] at hxm
        exact hblocks k x hxm
      · rw [if_neg hp] at hxm
        exact absurd hxm (by simp)
    have hmono := presentFold_mono ann ans rest _ _ hle
    cases hq : rest.foldl (presentStep ann ans)
        ((if P k then f k else []).foldl (presentStep ann ans) (presentStep ann ans b m)) with
    | false => rfl
    | true => exact absurd (hmono hq) (by simp [h])

theorem healFold_fst (msgs : List Message) (st : Nat × PendingMap) :
    (msgs.foldl healMsgScan st).1 = st.1 + msgs.length := by
  induction msgs generalizing st with
  | nil => simp
  | cons m rest ih =>
    rw [List.foldl_cons, ih]
    have h1 : (healMsgScan st m).1 = st.1 + 1 := by
      obtain ⟨s, M⟩ := st
      rfl
    rw [h1, List.length_cons]
    omega

theorem healMsgScan_snd (st : Nat × PendingMap) (m : Message) :
    (healMsgScan st m).2 =
      (if m.role == "tool" && strTruthy m.toolCallId then
        mapDelete
          (if m.role == "assistant" && hasToolCalls m then
            (m.toolCalls.getD []).foldl (healTcScan st.1) st.2
          else st.2)
          (optStr m.toolCallId)
      else
        (if m.role == "assistant" && hasToolCalls m then
          (m.toolCalls.getD []).foldl (healTcScan st.1) st.2
        else st.2)) := by
  obtain ⟨s, M⟩ := st
  rfl

theorem strTruthy_optStr_ne (o : Option String) (h : strTruthy o = true) : optStr o ≠ "" := by
  cases o with
  | none => exact absurd h (by simp [strTruthy])
  | some s =>
    simp only [strTruthy, Bool.not_eq_true', beq_eq_false_iff_ne, ne_eq] at h
    simpa [optStr] using h

theorem mapSet_entry (M : PendingMap) (k : String) (v : PendingEntry) (p : String × PendingEntry)
    (hp : p ∈ mapSet M k v) :
    (p.1 = k ∧ p.2 = v) ∨ (p ∈ M ∧ p.1 ≠ k) := by
  unfold mapSet at hp
  by_cases hpres : M.any (fun q => q.1 == k) = true
  · rw [if_pos hpres] at hp
    rcases List.mem_map.mp hp with ⟨q, hqM, hq⟩
    by_cases hqk : (q.1 == k) = true
    · rw [if_pos hqk] at hq
      subst hq
      exact Or.inl ⟨rfl, rfl⟩
    · rw [if_neg hqk] at hq
      subst hq
      exact Or.inr ⟨hqM, by simpa using hqk⟩
  · rw [if_neg hpres] at hp
    rcases List.mem_append.mp hp with h1 | h1
    · refine Or.inr ⟨h1, ?_⟩
      intro hk
      apply hpres
      refine List.any_eq_true.mpr ⟨p, h1, ?_⟩
      simp [hk]
    · have hpk : p = (k, v) := by simpa using h1
      subst hpk
      exact Or.inl ⟨rfl, rfl⟩

theorem mapDelete_mem (M : PendingMap) (k : String) (p : String × PendingEntry)
    (hp : p ∈ mapDelete M k) : p ∈ M :=
  List.mem_of_mem_filter hp

theorem healTcScan_entry (i : Nat) (tcs : List ToolCall) (M : PendingMap)
    (p : String × PendingEntry) (hp : p ∈ tcs.foldl (healTcScan i) M) :
    (p.1 ≠ "" ∧ p.2.index = i) ∨
      (p ∈ M ∧ ∀ tc ∈ tcs,
        (strTruthy tc.id && strTruthy tc.function.name && (optStr tc.id == p.1)) = false) := by
  induction tcs generalizing M with
  | nil => exact Or.inr ⟨hp, by simp⟩
  | cons tc rest ih =>
    rw [List.foldl_cons] at hp
    rcases ih _ hp with h1 | ⟨hpM, hrest⟩
    · exact Or.inl h1
    · unfold healTcScan at hpM
      by_cases hc : (strTruthy tc.id && strTruthy tc.function.name) = true
      · rw [if_pos hc] at hpM
        rcases mapSet_entry _ _ _ _ hpM with ⟨hk, hv⟩ | ⟨hpM2, hne⟩
        · refine Or.inl ⟨?_, ?_⟩
          · rw [hk]
            have hc1 : strTruthy tc.id = true := by
              simp only [Bool.and_eq_true] at hc
              exact hc.1
            exact strTruthy_optStr_ne tc.id hc1
          · rw [hv]
        · refine Or.inr ⟨hpM2, ?_⟩
          intro tc2 htc2
          rcases List.mem_cons.mp htc2 with heq | h2
          · subst heq
            have hb : (optStr tc2.id == p.1) = false := by
              simp only [beq_eq_false_iff_ne, ne_eq]
              exact fun hx => hne hx.symm
            simp [hb]
          · exact hrest tc2 h2
      · rw [if_neg hc] at hpM
        refine Or.inr ⟨hpM, ?_⟩
        intro tc2 htc2
        rcases List.mem_cons.mp htc2 with heq | h2
        · subst heq
          have hc2 : (strTruthy tc2.id && strTruthy tc2.function.name) = false := by
            revert hc
            cases strTruthy tc2.id && strTruthy tc2.function.name <;> simp
          simp [hc2]
        · exact hrest tc2 h2

theorem healAnnounces_false_of_not_call (m : Message) (id : String)
    (h : (m.role == "assistant" && hasToolCalls m) = false) : healAnnounces id m = false := by
  by_cases hr : (m.role == "assistant") = true
  · have htc : hasToolCalls m = false := by
      revert h
      cases hasToolCalls m <;> simp [hr]
    simp [healAnnounces, hr, hasToolCalls_false_any _ _ htc]
  · have hr2 : (m.role == "assistant") = false := by
      revert hr
      cases m.role == "assistant" <;> simp
    simp [healAnnounces, hr2]

/-- Every entry of the healer's pending map has a truthy id, an in-range index,
and no further announce of that id after the recorded index. -/
theorem healScan_entry (msgs : List Message) :
    ∀ p ∈ healScan msgs, p.1 ≠ "" ∧ p.2.index < msgs.length ∧
      ∀ m' ∈ msgs.drop (p.2.index + 1), healAnnounces p.1 m' = false := by
  induction msgs using List.reverseRecOn with
  | nil =>
    intro p hp
    exact absurd hp (by simp [healScan])
  | append_singleton msgs m ih =>
    intro p hp
    unfold healScan at hp
    rw [List.foldl_append, List.foldl_cons, List.foldl_nil] at hp
    rw [healMsgScan_snd] at hp
    have hfst : (msgs.foldl healMsgScan (0, [])).1 = msgs.length := by
      rw [healFold_fst]
      omega
    have hinner : p ∈ (if m.role == "assistant" && hasToolCalls m then
        (m.toolCalls.getD []).foldl
          (healTcScan (msgs.foldl healMsgScan (0, [])).1)
          (msgs.foldl healMsgScan (0, [])).2
      else (msgs.foldl healMsgScan (0, [])).2) := by
      by_cases htool : (m.role == "tool" && strTruthy m.toolCallId) = true
      · rw [if_pos htool] at hp
        exact mapDelete_mem _ _ _ hp
      · rw [if_neg htool] at hp
        exact hp
    have hdrop_all : (msgs ++ [m]).drop (msgs.length + 1) = [] :=
      List.drop_eq_nil_of_le (by simp)
    by_cases hasst : (m.role == "assistant" && hasToolCalls m) = true
    · rw [if_pos hasst] at hinner
      rcases healTcScan_entry _ _ _ _ hinner with ⟨hne, hidx⟩ | ⟨hpS, hall⟩
      · refine ⟨hne, ?_, ?_⟩
        · rw [hidx, hfst]
          simp
        · rw [hidx, hfst, hdrop_all]
          intro m' hm'
          exact absurd hm' (by simp)
      · obtain ⟨h1, h2, h3⟩ := ih p hpS
        refine ⟨h1, by simp; omega, ?_⟩
        intro m' hm'
        rw [List.drop_append_eq_append_drop, Nat.sub_eq_zero_of_le h2, List.drop_zero] at hm'
        rcases List.mem_append.mp hm' with h4 | h4
        · exact h3 m' h4
        · have hm'm : m' = m := by simpa using h4
          rw [hm'm]
          have hroleA : (m.role == "assistant") = true := by
            simp only [Bool.and_eq_true] at hasst
            exact hasst.1
          simp only [healAnnounces, hroleA, Bool.true_and]
          apply bool_eq_of_iff
          constructor
          · intro hany
            rcases List.any_eq_true.mp hany with ⟨tc, htc, hpred⟩
            exact absurd hpred (by simp [hall tc htc])
          · intro hf
            exact absurd hf (by simp)
    · rw [if_neg hasst] at hinner
      obtain ⟨h1, h2, h3⟩ := ih p hinner
      have hasst2 : (m.role == "assistant" && hasToolCalls m) = false := by
        revert hasst
        cases m.role == "assistant" && hasToolCalls m <;> simp
      refine ⟨h1, by simp; omega, ?_⟩
      intro m' hm'
      rw [List.drop_append_eq_append_drop, Nat.sub_eq_zero_of_le h2, List.drop_zero] at hm'
      rcases List.mem_append.mp hm' with h4 | h4
      · exact h3 m' h4
      · have hm'm : m' = m := by simpa using h4
        rw [hm'm]
        exact healAnnounces_false_of_not_call m p.1 hasst2

theorem addOrphan_lookup_self (gs : OrphanGroups) (i : Nat) (v : String × String) :
    (addOrphan gs i v).lookup i = some ((gs.lookup i).getD [] ++ [v]) := by
  induction gs with
  | nil => simp [addOrphan, List.lookup]
  | cons g rest ih =>
    obtain ⟨j, xs⟩ := g
    by_cases hij : (i == j) = true
    · simp [addOrphan, hij, List.lookup]
    · have hij' : (i == j) = false := by
        revert hij
        cases i == j <;> simp
      simp [addOrphan, hij', List.lookup, ih]

theorem addOrphan_lookup_other (gs : OrphanGroups) (i i2 : Nat) (v : String × String)
    (h : i2 ≠ i) :
    (addOrphan gs i v).lookup i2 = gs.lookup i2 := by
  induction gs with
  | nil =>
    have hb : (i2 == i) = false := by simp [h]
    simp [addOrphan, List.lookup, hb]
  | cons g rest ih =>
    obtain ⟨j, xs⟩ := g
    by_cases hij : (i == j) = true
    · have hi2j : (i2 == j) = false := by
        have hji : i = j := by simpa using hij
        subst hji
        simp [beq_eq_false_iff_ne, h]
      simp [addOrphan, hij, List.lookup, hi2j]
    · have hij' : (i == j) = false := by
        revert hij
        cases i == j <;> simp
      by_cases hi2j : (i2 == j) = true
      · simp [addOrphan, hij', List.lookup, hi2j]
      · have hi2j' : (i2 == j) = false := by
          revert hi2j
          cases i2 == j <;> simp
        simp [addOrphan, hij', List.lookup, hi2j', ih]

theorem groupOrphans_go_preserve (P : PendingMap) (gs : OrphanGroups) (i2 : Nat)
    (x : String × String) (l0 : List (String × String))
    (hl : gs.lookup i2 = some l0) (hx : x ∈ l0) :
    ∃ l, (P.foldl (fun g q => addOrphan g q.2.index (q.1, q.2.name)) gs).lookup i2 = some l ∧
      x ∈ l := by
  induction P generalizing gs l0 with
  | nil => exact ⟨l0, hl, hx⟩
  | cons q rest ih =>
    rw [List.foldl_cons]
    by_cases hq : q.2.index = i2
    · have h1 : (addOrphan gs q.2.index (q.1, q.2.name)).lookup i2 =
          some (l0 ++ [(q.1, q.2.name)]) := by
        rw [hq, addOrphan_lookup_self, hl]
        rfl
      exact ih _ _ h1 (by simp [hx])
    · have h1 : (addOrphan gs q.2.index (q.1, q.2.name)).lookup i2 = some l0 := by
        rw [addOrphan_lookup_other _ _ _ _ (fun he => hq he.symm), hl]
      exact ih _ _ h1 hx

theorem groupOrphans_go_mem (P : PendingMap) (p : String × PendingEntry) (hp : p ∈ P) :
    ∀ gs : OrphanGroups, ∃ l,
      (P.foldl (fun g q => addOrphan g q.2.index (q.1, q.2.name)) gs).lookup p.2.index = some l ∧
      (p.1, p.2.name) ∈ l := by
  induction P with
  | nil => exact absurd hp (by simp)
  | cons q rest ih =>
    intro gs
    rw [List.foldl_cons]
    rcases List.mem_cons.mp hp with heq | hmem
    · have h1 : (addOrphan gs q.2.index (q.1, q.2.name)).lookup q.2.index =
          some ((gs.lookup q.2.index).getD [] ++ [(q.1, q.2.name)]) :=
        addOrphan_lookup_self _ _ _
      rcases groupOrphans_go_preserve rest (addOrphan gs q.2.index (q.1, q.2.name))
        q.2.index (q.1, q.2.name) _ h1 (by simp) with ⟨l, hl, hxl⟩
      exact ⟨l, by rw [heq]; exact hl, by rw [heq]; exact hxl⟩
    · exact ih hmem _

theorem groupOrphans_lookup (P : PendingMap) (p : String × PendingEntry) (hp : p ∈ P) :
    ∃ l, (groupOrphans P).lookup p.2.index = some l ∧ (p.1, p.2.name) ∈ l :=
  groupOrphans_go_mem P p hp []

theorem addOrphan_keys (gs : OrphanGroups) (i : Nat) (v : String × String) :
    (addOrphan gs i v).map Prod.fst =
      if i ∈ gs.map Prod.fst then gs.map Prod.fst else gs.map Prod.fst ++ [i] := by
  induction gs with
  | nil => simp [addOrphan]
  | cons g rest ih =>
    obtain ⟨j, xs⟩ := g
    by_cases hij : (i == j) = true
    · have hji : i = j := by simpa using hij
      subst hji
      simp [addOrphan]
    · have hij' : (i == j) = false := by
        revert hij
        cases i == j <;> simp
      have hne : i ≠ j := by simpa using hij'
      by_cases hmem : i ∈ List.map Prod.fst rest <;>
        simp [addOrphan, hij', ih, hne, hmem]

theorem groupOrphans_keys_from (P : PendingMap) :
    ∀ gs : OrphanGroups,
      ∀ j ∈ (P.foldl (fun g q => addOrphan g q.2.index (q.1, q.2.name)) gs).map Prod.fst,
      j ∈ gs.map Prod.fst ∨ ∃ p ∈ P, p.2.index = j := by
  induction P with
  | nil =>
    intro gs j hj
    exact Or.inl hj
  | cons q rest ih =>
    intro gs j hj
    rw [List.foldl_cons] at hj
    rcases ih _ j hj with h1 | ⟨p, hpmem, hpj⟩
    · rw [addOrphan_keys] at h1
      by_cases hmem : q.2.index ∈ gs.map Prod.fst
      · rw [if_pos hmem] at h1
        exact Or.inl h1
      · rw [if_neg hmem] at h1
        rcases List.mem_append.mp h1 with h2 | h2
        · exact Or.inl h2
        · have hji : j = q.2.index := by simpa using h2
          exact Or.inr ⟨q, by simp, hji.symm⟩
    · exact Or.inr ⟨p, by simp [hpmem], hpj⟩

theorem groupOrphans_keys_nodup (P : PendingMap) :
    ∀ gs : OrphanGroups, (gs.map Prod.fst).Nodup →
      ((P.foldl (fun g q => addOrphan g q.2.index (q.1, q.2.name)) gs).map Prod.fst).Nodup := by
  induction P with
  | nil =>
    intro gs h
    exact h
  | cons q rest ih =>
    intro gs h
    rw [List.foldl_cons]
    apply ih
    rw [addOrphan_keys]
    by_cases hmem : q.2.index ∈ gs.map Prod.fst
    · rw [if_pos hmem]
      exact h
    · rw [if_neg hmem]
      simp [List.nodup_append, h, hmem]

theorem mem_insertDesc (x y : Nat) (l : List Nat) : x ∈ insertDesc y l ↔ x = y ∨ x ∈ l := by
  induction l with
  | nil => simp [insertDesc]
  | cons z zs ih =>
    by_cases h : y ≥ z
    · simp [insertDesc, h]
    · simp [insertDesc, h, ih]
      tauto

theorem mem_sortDesc (x : Nat) (l : List Nat) : x ∈ sortDesc l ↔ x ∈ l := by
  induction l with
  | nil => simp [sortDesc]
  | cons z zs ih =>
    rw [show sortDesc (z :: zs) = insertDesc z (sortDesc zs) from rfl, mem_insertDesc, ih]
    simp [List.mem_cons]

theorem insertDesc_perm (y : Nat) (l : List Nat) : List.Perm (insertDesc y l) (y :: l) := by
  induction l with
  | nil => exact List.Perm.refl _
  | cons z zs ih =>
    by_cases h : y ≥ z
    · simp only [insertDesc, if_pos h]
      exact List.Perm.refl _
    · simp only [insertDesc, if_neg h]
      exact List.Perm.trans (List.Perm.cons z ih) (List.Perm.swap y z zs)

theorem sortDesc_perm (l : List Nat) : List.Perm (sortDesc l) l := by
  induction l with
  | nil => exact List.Perm.refl _
  | cons z zs ih =>
    exact List.Perm.trans (insertDesc_perm z (sortDesc zs)) (List.Perm.cons z ih)

theorem insertDesc_sorted (y : Nat) (l : List Nat) (h : l.Pairwise (fun a b => a ≥ b)) :
    (insertDesc y l).Pairwise (fun a b => a ≥ b) := by
  induction l with
  | nil => simp [insertDesc]
  | cons z zs ih =>
    rcases List.pairwise_cons.mp h with ⟨hz, hzs⟩
    by_cases hyz : y ≥ z
    · simp only [insertDesc, if_pos hyz]
      refine List.pairwise_cons.mpr ⟨?_, h⟩
      intro b hb
      rcases List.mem_cons.mp hb with heq | hbzs
      · subst heq
        exact hyz
      · exact Nat.le_trans (hz b hbzs) hyz
    · simp only [insertDesc, if_neg hyz]
      refine List.pairwise_cons.mpr ⟨?_, ih hzs⟩
      intro b hb
      rw [mem_insertDesc] at hb
      rcases hb with heq | hbzs
      · subst heq
        omega
      · exact hz b hbzs

theorem sortDesc_sorted (l : List Nat) : (sortDesc l).Pairwise (fun a b => a ≥ b) := by
  induction l with
  | nil => simp [sortDesc]
  | cons z zs ih => exact insertDesc_sorted z (sortDesc zs) ih

theorem sortDesc_strict (l : List Nat) (h : l.Nodup) :
    (sortDesc l).Pairwise (fun a b => a > b) := by
  have hnd : (sortDesc l).Nodup := (sortDesc_perm l).nodup_iff.mpr h
  have hs := sortDesc_sorted l
  have hand := List.Pairwise.and hs hnd
  exact hand.imp (fun hab => by omega)

theorem any_key_mapSet (M : PendingMap) (k : String) (v : PendingEntry) (id : String) :
    (mapSet M k v).any (fun q => q.1 == id) = (M.any (fun q => q.1 == id) || (id == k)) := by
  apply bool_eq_of_iff
  simp only [Bool.or_eq_true, List.any_eq_true, beq_iff_eq]
  unfold mapSet
  by_cases hpres : M.any (fun q => q.1 == k) = true
  · rw [if_pos hpres]
    constructor
    · rintro ⟨q, hq, hqid⟩
      rcases List.mem_map.mp hq with ⟨q0, hq0, hq0e⟩
      by_cases hk : (q0.1 == k) = true
      · rw [if_pos hk] at hq0e
        subst hq0e
        exact Or.inr hqid.symm
      · rw [if_neg hk] at hq0e
        subst hq0e
        exact Or.inl ⟨q0, hq0, hqid⟩
    · rintro (⟨q, hq, hqid⟩ | hik)
      · by_cases hk : (q.1 == k) = true
        · refine ⟨(k, v), List.mem_map.mpr ⟨q, hq, by rw [if_pos hk]⟩, ?_⟩
          have hq1k : q.1 = k := by simpa using hk
          rw [← hq1k, hqid]
        · exact ⟨q, List.mem_map.mpr ⟨q, hq, by rw [if_neg hk]⟩, hqid⟩
      · rcases List.any_eq_true.mp hpres with ⟨q0, hq0, hq0k⟩
        have hq0k2 : (q0.1 == k) = true := hq0k
        exact ⟨(k, v), List.mem_map.mpr ⟨q0, hq0, by rw [if_pos hq0k2]⟩, hik.symm⟩
  · rw [if_neg hpres]
    constructor
    · rintro ⟨q, hq, hqid⟩
      rcases List.mem_append.mp hq with h1 | h1
      · exact Or.inl ⟨q, h1, hqid⟩
      · have hqkv : q = (k, v) := by simpa using h1
        subst hqkv
        exact Or.inr hqid.symm
    · rintro (⟨q, hq, hqid⟩ | hik)
      · exact ⟨q, by simp [hq], hqid⟩
      · exact ⟨(k, v), by simp, hik.symm⟩

theorem any_key_mapDelete (M : PendingMap) (k id : String) :
    (mapDelete M k).any (fun q => q.1 == id) = (M.any (fun q => q.1 == id) && !(id == k)) := by
  apply bool_eq_of_iff
  simp only [Bool.and_eq_true, Bool.not_eq_true', beq_eq_false_iff_ne, ne_eq,
    List.any_eq_true, beq_iff_eq]
  unfold mapDelete
  constructor
  · rintro ⟨q, hq, hqid⟩
    have hmf := List.mem_filter.mp hq
    refine ⟨⟨q, hmf.1, hqid⟩, ?_⟩
    intro hik
    have hbne : (q.1 != k) = true := hmf.2
    exact absurd (hqid.trans hik) (by simpa using hbne)
  · rintro ⟨⟨q, hq, hqid⟩, hik⟩
    refine ⟨q, List.mem_filter.mpr ⟨hq, ?_⟩, hqid⟩
    simp only [bne_iff_ne, ne_eq]
    rw [hqid]
    exact hik

theorem any_key_healTcScan (i : Nat) (tcs : List ToolCall) (M : PendingMap) (id : String) :
    ((tcs.foldl (healTcScan i) M).any (fun q => q.1 == id)) =
      (M.any (fun q => q.1 == id) ||
        tcs.any (fun tc => strTruthy tc.id && strTruthy tc.function.name && (optStr tc.id == id))) := by
  induction tcs generalizing M with
  | nil => simp
  | cons tc rest ih =>
    rw [List.foldl_cons, List.any_cons, ih]
    unfold healTcScan
    by_cases hc : (strTruthy tc.id && strTruthy tc.function.name) = true
    · rw [if_pos hc, any_key_mapSet]
      have hc2 : strTruthy tc.id = true ∧ strTruthy tc.function.name = true := by simpa using hc
      apply bool_eq_of_iff
      simp only [Bool.or_eq_true, Bool.and_eq_true, beq_iff_eq]
      constructor
      · rintro ((hA | hK) | hR)
        · exact Or.inl hA
        · exact Or.inr (Or.inl ⟨⟨hc2.1, hc2.2⟩, hK.symm⟩)
        · exact Or.inr (Or.inr hR)
      · rintro (hA | ⟨⟨h1, h2⟩, h3⟩ | hR)
        · exact Or.inl (Or.inl hA)
        · exact Or.inl (Or.inr h3.symm)
        · exact Or.inr hR
    · rw [if_neg hc]
      have hc0 : (strTruthy tc.id && strTruthy tc.function.name) = false := by
        revert hc
        cases strTruthy tc.id && strTruthy tc.function.name <;> simp
      simp [hc0]

theorem any_key_healMsgScan (st : Nat × PendingMap) (m : Message) (id : String) :
    ((healMsgScan st m).2.any (fun q => q.1 == id)) =
      presentStep (healAnnounces id) (answersId id) (st.2.any (fun q => q.1 == id)) m := by
  rw [healMsgScan_snd]
  by_cases htool : (m.role == "tool" && strTruthy m.toolCallId) = true
  · have htool2 : (m.role == "tool") = true ∧ strTruthy m.toolCallId = true := by simpa using htool
    have hrt : m.role = "tool" := by simpa using htool2.1
    have hassist : (m.role == "assistant" && hasToolCalls m) = false := by simp [hrt]
    rw [if_pos htool]
    simp only [hassist, Bool.false_eq_true, if_false]
    rw [any_key_mapDelete]
    have hann : healAnnounces id m = false := by simp [healAnnounces, hrt]
    by_cases hidt : id = optStr m.toolCallId
    · subst hidt
      have hans : answersId (optStr m.toolCallId) m = true := by
        simp [answersId, hrt, htool2.2]
      simp [presentStep, hans]
    · have hne : (optStr m.toolCallId == id) = false := by
        simp only [beq_eq_false_iff_ne, ne_eq]
        exact fun h => hidt h.symm
      have hans : answersId id m = false := by
        simp [answersId, hne]
      simp [presentStep, hans, hann, hidt]
  · have htool0 : (m.role == "tool" && strTruthy m.toolCallId) = false := by
      revert htool
      cases m.role == "tool" && strTruthy m.toolCallId <;> simp
    simp only [htool0, Bool.false_eq_true, if_false]
    by_cases hassist : (m.role == "assistant" && hasToolCalls m) = true
    · have hassist2 : (m.role == "assistant") = true ∧ hasToolCalls m = true := by simpa using hassist
      have hra : m.role = "assistant" := by simpa using hassist2.1
      rw [if_pos hassist, any_key_healTcScan]
      have hans : answersId id m = false := by simp [answersId, hra]
      have hanneq : healAnnounces id m =
          (m.toolCalls.getD []).any
            (fun tc => strTruthy tc.id && strTruthy tc.function.name && (optStr tc.id == id)) := by
        simp [healAnnounces, hra]
      simp only [presentStep, hans, Bool.false_eq_true, if_false]
      rw [hanneq]
      cases hany : (m.toolCalls.getD []).any
          (fun tc => strTruthy tc.id && strTruthy tc.function.name && (optStr tc.id == id)) <;>
        simp [hany]
    · have hassist0 : (m.role == "assistant" && hasToolCalls m) = false := by
        revert hassist
        cases m.role == "assistant" && hasToolCalls m <;> simp
      simp only [hassist0, Bool.false_eq_true, if_false]
      have hann : healAnnounces id m = false := healAnnounces_false_of_not_call m id hassist0
      have hans : answersId id m = false := by
        by_cases hr : (m.role == "tool") = true
        · have ht2 : strTruthy m.toolCallId = false := by
            revert htool0
            cases strTruthy m.toolCallId <;> simp [hr]
          simp [answersId, ht2]
        · have hr2 : (m.role == "tool") = false := by
            revert hr
            cases m.role == "tool" <;> simp
          simp [answersId, hr2]
      simp [presentStep, hann, hans]

theorem any_key_healFold (msgs : List Message) (st : Nat × PendingMap) (id : String) :
    ((msgs.foldl healMsgScan st).2.any (fun q => q.1 == id)) =
      msgs.foldl (presentStep (healAnnounces id) (answersId id)) (st.2.any (fun q => q.1 == id)) := by
  induction msgs generalizing st with
  | nil => rfl
  | cons m rest ih => rw [List.foldl_cons, List.foldl_cons, ih, any_key_healMsgScan]

/-- Presence of a key in the healer's pending map is the announce/answer replay. -/
theorem healScan_present (msgs : List Message) (id : String) :
    (healScan msgs).any (fun q => q.1 == id) = presentIn (healAnnounces id) (answersId id) msgs := by
  unfold healScan presentIn
  rw [any_key_healFold]
  rfl

theorem healScan_nil_of_presentIn (msgs : List Message)
    (h : ∀ id, presentIn (healAnnounces id) (answersId id) msgs = false) :
    healScan msgs = [] := by
  cases hp : healScan msgs with
  | nil => rfl
  | cons q rest =>
    have hany : (healScan msgs).any (fun x => x.1 == q.1) = true := by
      rw [hp]
      simp
    rw [healScan_present, h q.1] at hany
    exact absurd hany (by simp)

theorem any_key_exists (M : PendingMap) (id : String) (h : M.any (fun q => q.1 == id) = true) :
    ∃ e, (id, e) ∈ M := by
  rcases List.any_eq_true.mp h with ⟨q, hq, hqid⟩
  have hq1 : q.1 = id := by simpa using hqid
  exact ⟨q.2, by rw [← hq1]; exact hq⟩

theorem lookup_some_mem_keys (gs : OrphanGroups) (i : Nat) (l : List (String × String))
    (h : gs.lookup i = some l) : i ∈ gs.map Prod.fst := by
  induction gs with
  | nil => exact absurd h (by simp)
  | cons g rest ih =>
    obtain ⟨j, xs⟩ := g
    by_cases hij : (i == j) = true
    · have : i = j := by simpa using hij
      simp [this]
    · have hij' : (i == j) = false := by
        revert hij
        cases i == j <;> simp
      have h2 : List.lookup i rest = some l := by
        simpa [List.lookup, hij'] using h
      simp [ih h2]

theorem heal_of_scan_nil (msgs : List Message) (h : healScan msgs = []) :
    healOrphanedToolCalls msgs = msgs := by
  simp [healOrphanedToolCalls, h]

/-- The replay over a weave is settled when either the id was already absent
(blocks never announce) or some surviving block after the id's last announce
answers it. -/
theorem presentIn_weave_false (f : Nat → List Message) (P : Nat → Bool) (msgs : List Message)
    (id : String)
    (hblocks : ∀ j, ∀ x ∈ f j, healAnnounces id x = false)
    (hcase : presentIn (healAnnounces id) (answersId id) msgs = false ∨
      ∃ i, i < msgs.length ∧ P i = true ∧
        (∃ s ∈ f i, answersId id s = true) ∧
        (∀ m' ∈ msgs.drop (i + 1), healAnnounces id m' = false)) :
    presentIn (healAnnounces id) (answersId id) (weave f P msgs 0) = false := by
  rcases hcase with hF | ⟨i, hi, hPi, ⟨s, hsf, hsans⟩, hdrop⟩
  · unfold presentIn
    exact weave_fold_le _ _ _ _ hblocks msgs 0 false hF
  · have hTi : msgs.take (i + 1) = msgs.take i ++ [msgs[i]] := by
      rw [← List.take_concat_get msgs i hi, List.concat_eq_append]
    have hmsgs2 : msgs = msgs.take i ++ msgs[i] :: msgs.drop (i + 1) := by
      conv_lhs => rw [← List.take_append_drop (i + 1) msgs, hTi]
      simp
    have hlen : (msgs.take i).length = i := by
      rw [List.length_take]
      omega
    have hw : weave f P msgs 0 =
        weave f P (msgs.take i) 0 ++
          msgs[i] :: (f i ++ weave f P (msgs.drop (i + 1)) (i + 1)) := by
      conv_lhs => rw [hmsgs2]
      rw [weave_append, hlen]
      simp only [Nat.zero_add, weave, hPi, if_true]
    unfold presentIn
    rw [hw, List.foldl_append, List.foldl_cons, List.foldl_append]
    rw [presentFold_answered _ _ (f i) _ s hsf hsans (fun x hx => hblocks i x hx)]
    apply presentFold_no_announce
    intro x hx
    rcases weave_mem _ _ _ _ x hx with hxB | ⟨j, hxf⟩
    · exact hdrop x hxB
    · exact hblocks j x hxf

/-- After one healing pass the orphan scan finds nothing. -/
theorem healScan_heal_nil (msgs : List Message) :
    healScan (healOrphanedToolCalls msgs) = [] := by
  cases hp : healScan msgs with
  | nil => rw [heal_of_scan_nil msgs hp, hp]
  | cons q rest =>
    have hnodup : ((groupOrphans (healScan msgs)).map Prod.fst).Nodup :=
      groupOrphans_keys_nodup (healScan msgs) [] (by simp)
    have hbound : ∀ j ∈ sortDesc ((groupOrphans (healScan msgs)).map Prod.fst),
        j < msgs.length := by
      intro j hj
      rcases groupOrphans_keys_from (healScan msgs) [] j ((mem_sortDesc j _).mp hj) with
        h0 | ⟨p2, hp2, hidx⟩
      · exact absurd h0 (by simp)
      · have hlt := (healScan_entry msgs p2 hp2).2.1
        rw [hidx] at hlt
        exact hlt
    have hheal : healOrphanedToolCalls msgs =
        weave (fun i => (((groupOrphans (healScan msgs)).lookup i).getD []).map orphanToolMessage)
          (fun k => (sortDesc ((groupOrphans (healScan msgs)).map Prod.fst)).contains k) msgs 0 := by
      have hcond : (healScan msgs).isEmpty = false := by
        rw [hp]
        rfl
      simp only [healOrphanedToolCalls, hcond, Bool.false_eq_true, if_false]
      exact foldl_insertAt_weave _ _ msgs (sortDesc_strict _ hnodup) hbound
    rw [hheal]
    apply healScan_nil_of_presentIn
    intro id
    have hblocks : ∀ j, ∀ x ∈
        (((groupOrphans (healScan msgs)).lookup j).getD []).map orphanToolMessage,
        healAnnounces id x = false := by
      intro j x hx
      rcases List.mem_map.mp hx with ⟨pr, hpr, hpre⟩
      subst hpre
      simp [healAnnounces, orphanToolMessage]
    apply presentIn_weave_false _ _ _ _ hblocks
    by_cases hpres : (healScan msgs).any (fun x2 => x2.1 == id) = true
    · rcases any_key_exists _ id hpres with ⟨e, heP⟩
      obtain ⟨hne, hidx, hdrop⟩ := healScan_entry msgs (id, e) heP
      rcases groupOrphans_lookup (healScan msgs) (id, e) heP with ⟨l, hlook, hmeml⟩
      refine Or.inr ⟨e.index, hidx, ?_, ?_, hdrop⟩
      · have hkey : e.index ∈ (groupOrphans (healScan msgs)).map Prod.fst :=
          lookup_some_mem_keys _ _ _ hlook
        have hmemk : e.index ∈ sortDesc ((groupOrphans (healScan msgs)).map Prod.fst) :=
          (mem_sortDesc _ _).mpr hkey
        simpa using hmemk
      · refine ⟨orphanToolMessage (id, e.name), ?_, ?_⟩
        · rw [hlook]
          exact List.mem_map_of_mem _ hmeml
        · simp [answersId, orphanToolMessage, strTruthy, optStr, hne]
    · refine Or.inl ?_
      rw [← healScan_present]
      revert hpres
      cases (healScan msgs).any (fun x2 => x2.1 == id) <;> simp

/-- C3 (confirmed): `healOrphanedToolCalls` is idempotent — after one healing
pass the orphan scan finds nothing, so a second pass returns its input
unchanged. -/
theorem c3_heal_idempotent (msgs : List Message) :
    healOrphanedToolCalls (healOrphanedToolCalls msgs) = healOrphanedToolCalls msgs ∧
    healScan (healOrphanedToolCalls msgs) = [] :=
  ⟨heal_of_scan_nil _ (healScan_heal_nil msgs), healScan_heal_nil msgs⟩

end Eugent
